import Mathlib

/-!
Shallow embedding of the `space-search` crate (generic breadth-first,
depth-first, heuristic-guided and A* search-space exploration).

Rust sources embedded here:
  * `src/lib.rs` — domain traits (`Searchable`, `SolutionIdentifiable`,
    `Scoreable`, `CostSearchable`), the context carriers (`NoContext`,
    `StateParent`, `StateCumulativeCost`, `StateParentCumulativeCost`),
    the `OrderedSearchable` ordering wrapper, the `ExplorationManager`
    contract, the `Searcher` iterator driver and
    `prepare_result_from_state_parent_map`.
  * `src/search/…/….rs` — the concrete manager variants.

Modelling conventions:
  * A domain implementation (the user's state type with its trait impls) is a
    record of functions: `SearchSpace` for `Searchable + SolutionIdentifiable`,
    `CostSpace` for `CostSearchable + Scoreable + SolutionIdentifiable`.
    Successor iterators are modelled as `List`s.
  * `VecDeque` is a `List` (front = head, back = last).
  * `HashSet` (std, external to the repository) is a `List` used purely as a
    set: `insert` conses, membership is `∈`; iteration order is never used by
    the code.
  * `BinaryHeap` (std, external to the repository) is modelled at its
    interface: a `List` of entries where `push` conses and `pop` removes a
    maximal entry w.r.t. the entries' `Ord` (ties broken deterministically);
    the code relies only on "pop yields a greatest element".
  * Mutation is explicit state passing, `&mut self` methods return the new
    manager value.  The potentially non-terminating driver loop
    (`Searcher::next`) takes a fuel parameter; running out of fuel is a
    distinguished outcome, as is frontier exhaustion.
  * The Rust generic `Score: Ord + Add + Zero` is a type with
    `[LinearOrder C] [Add C] [Zero C]` in the manager definitions.
-/

namespace SpaceSearch

/-- Domain record for `Searchable + SolutionIdentifiable` (`src/lib.rs:52-63`):
`next_states` yields the adjacent states, `is_solution` the goal test. -/
structure SearchSpace (S : Type) where
  nextStates : S → List S
  isSolution : S → Bool

/-- Domain record for `CostSearchable + Scoreable + SolutionIdentifiable`
(`src/lib.rs:72-92`): successors paired with per-edge costs, heuristic
score, and the goal test. -/
structure CostSpace (S C : Type) where
  nextStatesWithCosts : S → List (S × C)
  score : S → C
  isSolution : S → Bool

/-- The blanket impl `impl<T: CostSearchable> Searchable for T`
(`src/lib.rs:111-118`): `next_states` is `next_states_with_costs`
with the costs projected away. -/
def CostSpace.nextStates {S C : Type} (sp : CostSpace S C) (s : S) : List S :=
  (sp.nextStatesWithCosts s).map Prod.fst

/-- View of a `CostSpace` as a `SearchSpace` through the blanket impl. -/
def CostSpace.toSearchSpace {S C : Type} (sp : CostSpace S C) : SearchSpace S :=
  { nextStates := sp.nextStates, isSolution := sp.isSolution }

/-- `NoContext<S>` (`src/lib.rs:180`): a state with no extra context. -/
structure NoContext (S : Type) where
  state : S
deriving DecidableEq

/-- `StateParent<S>` (`src/lib.rs:193-196`): a state plus the optional index
of its parent in the parent arena (`None` for the root). -/
structure StateParent (S : Type) where
  state : S
  parent : Option Nat
deriving DecidableEq

/-- `StateCumulativeCost<S, C>` (`src/lib.rs:208-211`): a state plus the
cumulative cost accrued from the start. -/
structure StateCumulativeCost (S C : Type) where
  state : S
  cumulativeCost : C
deriving DecidableEq

/-- `StateParentCumulativeCost<S, C>` (`src/lib.rs:224-228`): a state plus
parent index and cumulative cost, for A* route-yielding managers. -/
structure StateParentCumulativeCost (S C : Type) where
  state : S
  parent : Option Nat
  cumulativeCost : C
deriving DecidableEq

/-- `From<StateParentCumulativeCost<S, C>> for StateParent<S>`
(`src/lib.rs:236-242`): drop the cumulative cost. -/
def StateParentCumulativeCost.toStateParent {S C : Type}
    (x : StateParentCumulativeCost S C) : StateParent S :=
  { state := x.state, parent := x.parent }

/-- `OrderedSearchable<T, C>` (`src/lib.rs:123-126`): a frontier payload
paired with a precomputed score. -/
structure OrderedSearchable (T C : Type) where
  state : T
  score : C
deriving DecidableEq

/-- The `Ord` impl of `OrderedSearchable` (`src/lib.rs:168-175`):
`self.cmp(other) = other.score.cmp(&self.score)` — the comparison of the
scores, inverted. -/
def osCmp {T C : Type} [LinearOrder C] (a b : OrderedSearchable T C) : Ordering :=
  compare b.score a.score

/-- The `PartialEq` impl of `OrderedSearchable` (`src/lib.rs:148-155`):
equality compares the scores only. -/
def osEq {T C : Type} [DecidableEq C] (a b : OrderedSearchable T C) : Bool :=
  a.score = b.score

/-- `From<S> for OrderedSearchable<S, S::Score>` (`src/lib.rs:128-136`). -/
def osOfState {S C : Type} (score : S → C) (s : S) : OrderedSearchable S C :=
  { state := s, score := score s }

/-! ### The std collections at their interfaces -/

/-- `VecDeque::pop_front`: the head of the list. -/
def popFront {A : Type} : List A → Option (A × List A)
  | [] => none
  | a :: l => some (a, l)

/-- `VecDeque::pop_back`: the last element of the list. -/
def popBack {A : Type} : List A → Option (A × List A)
  | [] => none
  | a :: l =>
    match popBack l with
    | none => some (a, [])
    | some (b, l') => some (b, a :: l')

/-- `VecDeque::push_back`: append at the back. -/
def pushBack {A : Type} (l : List A) (a : A) : List A := l ++ [a]

/-- `BinaryHeap::pop` at its interface: remove a maximal element w.r.t. a
comparison (first maximal element encountered wins ties). -/
def heapPop {A : Type} (cmp : A → A → Ordering) : List A → Option (A × List A)
  | [] => none
  | a :: l =>
    match heapPop cmp l with
    | none => some (a, [])
    | some (b, l') => if cmp a b = .lt then some (b, a :: l') else some (a, l)

/-- `BinaryHeap::push` at its interface: add the element (position in the
list model is irrelevant; only `heapPop`'s choice is observable). -/
def heapPush {A : Type} (l : List A) (a : A) : List A := a :: l

/-! ### Path reconstruction (`src/lib.rs:325-350`) -/

/-- The loop body of `prepare_result_from_state_parent_map`.  `st` and `mpi`
are the current `state`/`parent` pair, `acc` the sequence built so far (the
`VecDeque` that states are pushed to the front of).  The Rust loop can fail
by `expect` (missing arena index, modelled as `none`) and, on a cyclic index
chain, loop forever (modelled by the `fuel` bound, also `none`). -/
def reconstructAux {S : Type} (parents : List (StateParent S)) :
    Nat → S → Option Nat → List S → Option (List S)
  | _, st, none, acc => some (st :: acc)
  | 0, _, some _, _ => none
  | fuel + 1, st, some pi, acc =>
    match parents.get? pi with
    | none => none
    | some e => reconstructAux parents fuel e.state e.parent (st :: acc)

/-- `prepare_result_from_state_parent_map` (`src/lib.rs:325-350`): walk the
parent chain of `item` through the arena, building the route from the root
to `item`'s state.  `parents.length` is enough fuel for every well-formed
arena (indices strictly decrease along chains). -/
def prepareResultFromStateParentMap {S : Type} (parents : List (StateParent S))
    (item : StateParent S) : Option (List S) :=
  reconstructAux parents (parents.length + 1) item.state item.parent []

/-- Arena well-formedness: every parent index stored in an arena entry
refers to a strictly earlier arena position. -/
def ArenaWF {S : Type} (parents : List (StateParent S)) : Prop :=
  ∀ i e, parents.get? i = some e → ∀ pi, e.parent = some pi → pi < i

/-- Item well-formedness w.r.t. an arena: the stored parent index (if any)
refers to an already-filled arena position. -/
def ItemWF {S : Type} (parents : List (StateParent S)) (it : StateParent S) : Prop :=
  ∀ pi, it.parent = some pi → pi < parents.length

section ReconstructLemmas

variable {S : Type} {parents : List (StateParent S)}

/-- The accumulator of `reconstructAux` is just appended to the built
route. -/
theorem reconstructAux_acc (fuel : Nat) :
    ∀ (st : S) (mpi : Option Nat) (acc : List S),
      reconstructAux parents fuel st mpi acc =
        (reconstructAux parents fuel st mpi []).map (· ++ acc) := by
  induction fuel with
  | zero =>
    intro st mpi acc
    cases mpi <;> simp [reconstructAux]
  | succ fuel ih =>
    intro st mpi acc
    cases mpi with
    | none => simp [reconstructAux]
    | some pi =>
      rw [reconstructAux, reconstructAux]
      rcases hg : parents.get? pi with _ | e
      · simp
      · dsimp only
        rw [ih e.state e.parent (st :: acc), ih e.state e.parent [st]]
        rcases reconstructAux parents fuel e.state e.parent [] with _ | p <;> simp

/-- Under a well-formed arena, any sufficient fuel computes the same chain
as the canonical fuel `pi + 1`. -/
theorem reconstructAux_fuel_canon (wf : ArenaWF parents) :
    ∀ (pi : Nat), pi < parents.length →
      ∀ (fuel : Nat), pi < fuel → ∀ (st : S) (acc : List S),
        reconstructAux parents fuel st (some pi) acc =
          reconstructAux parents (pi + 1) st (some pi) acc := by
  intro pi
  induction pi using Nat.strong_induction_on with
  | _ pi ih =>
    intro hlen fuel hfuel st acc
    rcases fuel with _ | k
    · omega
    rcases hg : parents.get? pi with _ | e
    · rw [List.get?_eq_none] at hg
      omega
    rw [reconstructAux, reconstructAux, hg]
    simp only
    rcases hp : e.parent with _ | pi'
    · simp [reconstructAux]
    have hlt : pi' < pi := wf pi e hg pi' hp
    have hlen' : pi' < parents.length := hlt.trans hlen
    rw [ih pi' hlt hlen' k (by omega), ih pi' hlt hlen' pi (by omega)]

/-- Extending the arena does not change the reconstruction of a chain that
lies entirely in the old part. -/
theorem reconstructAux_append (wf : ArenaWF parents) (ext : List (StateParent S)) :
    ∀ (pi : Nat), pi < parents.length →
      ∀ (fuel : Nat) (st : S) (acc : List S),
        reconstructAux (parents ++ ext) fuel st (some pi) acc =
          reconstructAux parents fuel st (some pi) acc := by
  intro pi
  induction pi using Nat.strong_induction_on with
  | _ pi ih =>
    intro hlen fuel st acc
    rcases fuel with _ | k
    · simp [reconstructAux]
    rcases hg : parents.get? pi with _ | e
    · rw [List.get?_eq_none] at hg
      omega
    have hg' : (parents ++ ext).get? pi = some e := by
      rw [List.get?_append hlen, hg]
    rw [reconstructAux, reconstructAux, hg, hg']
    simp only
    rcases hp : e.parent with _ | pi'
    · simp [reconstructAux]
    have hlt : pi' < pi := wf pi e hg pi' hp
    exact ih pi' hlt (hlt.trans hlen) k e.state (st :: acc)

/-- Under a well-formed arena, reconstruction of a well-formed chain
succeeds whenever the fuel exceeds the starting index. -/
theorem reconstructAux_isSome (wf : ArenaWF parents) :
    ∀ (pi : Nat), pi < parents.length →
      ∀ (fuel : Nat), pi < fuel → ∀ (st : S) (acc : List S),
        (reconstructAux parents fuel st (some pi) acc).isSome := by
  intro pi
  induction pi using Nat.strong_induction_on with
  | _ pi ih =>
    intro hlen fuel hfuel st acc
    rcases fuel with _ | k
    · omega
    rcases hg : parents.get? pi with _ | e
    · rw [List.get?_eq_none] at hg
      omega
    rw [reconstructAux, hg]
    simp only
    rcases hp : e.parent with _ | pi'
    · simp [reconstructAux]
    have hlt : pi' < pi := wf pi e hg pi' hp
    exact ih pi' hlt (by omega) k (by omega) e.state (st :: acc)

/-- Whatever `reconstructAux` returns ends in the starting state followed by
the accumulator. -/
theorem reconstructAux_shape (fuel : Nat) :
    ∀ (st : S) (mpi : Option Nat) (acc p : List S),
      reconstructAux parents fuel st mpi acc = some p →
      ∃ pre, p = pre ++ st :: acc := by
  induction fuel with
  | zero =>
    intro st mpi acc p h
    cases mpi <;> simp [reconstructAux] at h
    exact ⟨[], h.symm⟩
  | succ fuel ih =>
    intro st mpi acc p h
    cases mpi with
    | none =>
      simp [reconstructAux] at h
      exact ⟨[], h.symm⟩
    | some pi =>
      rw [reconstructAux] at h
      rcases hg : parents.get? pi with _ | e <;> rw [hg] at h
      · simp at h
      · obtain ⟨pre, hpre⟩ := ih e.state e.parent (st :: acc) p h
        exact ⟨pre ++ [e.state], by simp [hpre]⟩

/-- Route reconstruction for an item whose parent pointer is in range of a
well-formed arena succeeds. -/
theorem prepareResult_isSome {it : StateParent S} (wf : ArenaWF parents)
    (hit : ItemWF parents it) :
    (prepareResultFromStateParentMap parents it).isSome := by
  rcases hp : it.parent with _ | pi
  · simp [prepareResultFromStateParentMap, hp, reconstructAux]
  · unfold prepareResultFromStateParentMap
    rw [hp]
    exact reconstructAux_isSome wf pi (hit pi hp) (parents.length + 1)
      (Nat.lt_succ_of_lt (hit pi hp)) it.state []

/-- Route reconstruction is stable under extending the arena, for items
lying in the old part. -/
theorem prepareResult_append {it : StateParent S} (wf : ArenaWF parents)
    (hit : ItemWF parents it) (ext : List (StateParent S)) :
    prepareResultFromStateParentMap (parents ++ ext) it =
      prepareResultFromStateParentMap parents it := by
  rcases hp : it.parent with _ | pi
  · simp [prepareResultFromStateParentMap, hp, reconstructAux]
  · have hpi : pi < parents.length := hit pi hp
    unfold prepareResultFromStateParentMap
    rw [hp]
    rw [reconstructAux_append wf ext pi hpi]
    rw [reconstructAux_fuel_canon wf pi hpi ((parents ++ ext).length + 1) (by simp; omega)]
    rw [reconstructAux_fuel_canon wf pi hpi (parents.length + 1) (by omega)]

/-- A reconstructed route is nonempty and ends at the item's state. -/
theorem prepareResult_getLast {it : StateParent S} {p : List S}
    (h : prepareResultFromStateParentMap parents it = some p) :
    p ≠ [] ∧ p.getLast? = some it.state := by
  obtain ⟨pre, rfl⟩ := reconstructAux_shape (parents.length + 1) it.state it.parent [] p h
  constructor
  · simp
  · rw [List.getLast?_append]
    rfl

/-- A frontier item or arena entry is `good` when its parent pointer is in
range and its reconstructed route is a genuine path of the search space
from the start state to the item's own state. -/
def GoodItem {S : Type} (succs : S → List S) (start : S)
    (parents : List (StateParent S)) (it : StateParent S) : Prop :=
  ItemWF parents it ∧
  ∃ p, prepareResultFromStateParentMap parents it = some p ∧
    p.head? = some start ∧ p.getLast? = some it.state ∧
    List.Chain' (fun a b => b ∈ succs a) p

section GoodItemLemmas

variable {S : Type} {succs : S → List S} {start : S}
variable {parents : List (StateParent S)}

theorem GoodItem.append {it : StateParent S} (wf : ArenaWF parents)
    (h : GoodItem succs start parents it) (ext : List (StateParent S)) :
    GoodItem succs start (parents ++ ext) it := by
  obtain ⟨hwf, p, hp, hh, hl, hc⟩ := h
  refine ⟨fun pi hpi => ?_, p, ?_, hh, hl, hc⟩
  · have := hwf pi hpi
    simp only [List.length_append]
    omega
  · rw [prepareResult_append wf hwf ext]
    exact hp

theorem ArenaWF.push {it : StateParent S} (wf : ArenaWF parents)
    (hit : ItemWF parents it) : ArenaWF (parents ++ [it]) := by
  intro i e hg pi hp
  rcases Nat.lt_or_ge i parents.length with hi | hi
  · rw [List.get?_append hi] at hg
    exact wf i e hg pi hp
  · rw [List.get?_append_right hi] at hg
    rcases Nat.lt_or_ge (i - parents.length) 1 with hi1 | hi1
    · have : i = parents.length := by omega
      subst this
      simp at hg
      subst hg
      have := hit pi hp
      omega
    · rw [List.get?_eq_none.2 (by simp; omega)] at hg
      cases hg

/-- The route of a freshly produced frontier item (a successor `t` pointing
at the newly registered arena entry) is the expanded item's route extended
by `t`. -/
theorem route_extend {cur : StateParent S} {p : List S} (wf : ArenaWF parents)
    (hwf : ItemWF parents cur)
    (hcur : prepareResultFromStateParentMap parents cur = some p) (t : S) :
    prepareResultFromStateParentMap (parents ++ [cur])
      { state := t, parent := some parents.length } = some (p ++ [t]) := by
  unfold prepareResultFromStateParentMap at hcur ⊢
  simp only
  have hlen : (parents ++ [cur]).length + 1 = (parents.length + 1) + 1 := by simp
  rw [hlen, reconstructAux]
  rw [show (parents ++ [cur]).get? parents.length = some cur from by
    rw [List.get?_append_right (Nat.le_refl _)]
    simp]
  simp only
  rcases hp : cur.parent with _ | pi
  · rw [hp] at hcur
    rw [reconstructAux] at hcur ⊢
    cases hcur
    rfl
  · rw [hp] at hcur
    have hpi : pi < parents.length := hwf pi hp
    rw [reconstructAux_append wf [cur] pi hpi]
    rw [reconstructAux_fuel_canon wf pi hpi (parents.length + 1) (by omega)]
    rw [reconstructAux_fuel_canon wf pi hpi (parents.length + 1) (by omega)] at hcur
    rw [reconstructAux_acc]
    rw [reconstructAux_acc] at hcur
    rcases hr : reconstructAux parents (pi + 1) cur.state (some pi) [] with _ | q <;>
      rw [hr] at hcur
    · cases hcur
    · simp at hcur
      simp [hcur]

end GoodItemLemmas

end ReconstructLemmas

/-! ### Cost-annotated paths of a `CostSpace` -/

/-- A list of cost-annotated steps, each an element of
`next_states_with_costs` of the previous state, starting from `s`. -/
def CSteps {S C : Type} (sp : CostSpace S C) : S → List (S × C) → Prop
  | _, [] => True
  | s, (t, c) :: r => (t, c) ∈ sp.nextStatesWithCosts s ∧ CSteps sp t r

/-- The final state of a cost-annotated step list. -/
def pathEnd {S C : Type} : S → List (S × C) → S
  | s, [] => s
  | _, (t, _) :: r => pathEnd t r

/-- The total edge cost of a cost-annotated step list. -/
def pathCost {S C : Type} [Add C] [Zero C] (l : List (S × C)) : C :=
  (l.map Prod.snd).sum

def decCSteps {S C : Type} [DecidableEq S] [DecidableEq C] (sp : CostSpace S C) :
    (s : S) → (l : List (S × C)) → Decidable (CSteps sp s l)
  | _, [] => .isTrue trivial
  | s, (t, c) :: r =>
    haveI : Decidable (CSteps sp t r) := decCSteps sp t r
    inferInstanceAs (Decidable ((t, c) ∈ sp.nextStatesWithCosts s ∧ CSteps sp t r))

instance {S C : Type} [DecidableEq S] [DecidableEq C] (sp : CostSpace S C)
    (s : S) (l : List (S × C)) : Decidable (CSteps sp s l) := decCSteps sp s l

section CStepsLemmas

variable {S C : Type} {sp : CostSpace S C}

theorem csteps_append_single {s : S} {l : List (S × C)} {t : S} {c : C}
    (h : CSteps sp s l) (ht : (t, c) ∈ sp.nextStatesWithCosts (pathEnd s l)) :
    CSteps sp s (l ++ [(t, c)]) := by
  induction l generalizing s with
  | nil => exact ⟨ht, trivial⟩
  | cons x r ih =>
    rcases x with ⟨u, d⟩
    exact ⟨h.1, ih h.2 ht⟩

theorem csteps_chain {s : S} {l : List (S × C)} (h : CSteps sp s l) :
    List.Chain' (fun a b => b ∈ sp.nextStates a) (s :: l.map Prod.fst) := by
  induction l generalizing s with
  | nil => simp
  | cons x r ih =>
    rcases x with ⟨u, d⟩
    refine List.Chain'.cons ?_ (ih h.2)
    simp only [CostSpace.nextStates]
    exact List.mem_map.mpr ⟨(u, d), h.1, rfl⟩

theorem pathEnd_getLast (s : S) (l : List (S × C)) :
    (s :: l.map Prod.fst).getLast? = some (pathEnd s l) := by
  induction l generalizing s with
  | nil => rfl
  | cons x r ih =>
    rcases x with ⟨u, d⟩
    rw [pathEnd]
    rw [← ih u]
    rfl

theorem csteps_take {s : S} {l : List (S × C)} (h : CSteps sp s l) (k : Nat) :
    CSteps sp s (l.take k) := by
  induction l generalizing s k with
  | nil => simp [CSteps]
  | cons x r ih =>
    rcases x with ⟨u, d⟩
    rcases k with _ | k
    · exact trivial
    · exact ⟨h.1, ih h.2 k⟩

theorem csteps_drop {s : S} {l : List (S × C)} (h : CSteps sp s l) (k : Nat) :
    CSteps sp (pathEnd s (l.take k)) (l.drop k) := by
  induction l generalizing s k with
  | nil => simp [CSteps]
  | cons x r ih =>
    rcases x with ⟨u, d⟩
    rcases k with _ | k
    · exact h
    · exact ih h.2 k

theorem pathEnd_drop {s : S} {l : List (S × C)} (k : Nat) :
    pathEnd (pathEnd s (l.take k)) (l.drop k) = pathEnd s l := by
  induction l generalizing s k with
  | nil => simp [pathEnd]
  | cons x r ih =>
    rcases x with ⟨u, d⟩
    rcases k with _ | k
    · rfl
    · exact ih k

theorem pathCost_take_drop [AddCommMonoid C] (l : List (S × C)) (k : Nat) :
    pathCost (l.take k) + pathCost (l.drop k) = pathCost l := by
  unfold pathCost
  rw [← List.sum_append, ← List.map_append, List.take_append_drop]

theorem pathEnd_append_single (s : S) (l : List (S × C)) (t : S) (c : C) :
    pathEnd s (l ++ [(t, c)]) = t := by
  induction l generalizing s with
  | nil => rfl
  | cons x r ih =>
    rcases x with ⟨u, d⟩
    exact ih u

theorem pathCost_append_single [AddCommMonoid C] (l : List (S × C)) (t : S) (c : C) :
    pathCost (l ++ [(t, c)]) = pathCost l + c := by
  unfold pathCost
  simp

theorem take_succ_eq (l : List (S × C)) (k : Nat) (h : k < l.length) :
    l.take (k + 1) = l.take k ++ [l.get ⟨k, h⟩] := by
  exact (List.take_concat_get' l k h).symm

theorem csteps_get_mem {s : S} {l : List (S × C)} (h : CSteps sp s l)
    (k : Nat) (hk : k < l.length) :
    l.get ⟨k, hk⟩ ∈ sp.nextStatesWithCosts (pathEnd s (l.take k)) := by
  have hd := csteps_drop h k
  rw [List.drop_eq_getElem_cons hk] at hd
  rcases hg : l.get ⟨k, hk⟩ with ⟨t, c⟩
  have hgk : l[k] = (t, c) := hg
  rw [hgk] at hd
  exact hd.1

end CStepsLemmas

/-! ### The `ExplorationManager` contract and the `Searcher` driver
(`src/lib.rs:247-323`) -/

/-- The `ExplorationManager` trait (`src/lib.rs:247-268`) as a record of
operations over an explicit manager-state type `M`.  `&mut self` methods
return the updated manager. -/
structure ManagerOps (State Item Ctx NS Y M : Type) where
  popState : M → Option (Item × M)
  prepareResultFrom : M → Item → Y
  validState : M → Item → Bool × M
  placeState : M → Item → M
  registerCurrentState : M → Item → Ctx × M
  prepareState : M → Ctx → NS → Item
  nextStatesIter : State → List NS
  itemState : Item → State

/-- Outcome of one call to `Searcher::next`: a yielded result (`Some` in
Rust), frontier exhaustion (`None` in Rust), or the fuel bound was hit (the
Rust loop would have kept running). -/
inductive StepResult (Y M : Type) where
  | found : Y → M → StepResult Y M
  | exhausted : M → StepResult Y M
  | outOfFuel : M → StepResult Y M
deriving DecidableEq

/-- One pass of the inner `for` loop of `Searcher::next`
(`src/lib.rs:315-320`): build the new frontier item, test `valid_state`, and
`place_state` it if admitted. -/
def expandStep {State Item Ctx NS Y M : Type}
    (ops : ManagerOps State Item Ctx NS Y M) (ctx : Ctx) (m : M) (ns : NS) : M :=
  match ops.validState m (ops.prepareState m ctx ns) with
  | (true, m') => ops.placeState m' (ops.prepareState m ctx ns)
  | (false, m') => m'

/-- The whole inner `for` loop of `Searcher::next` over the successor list. -/
def expandFold {State Item Ctx NS Y M : Type}
    (ops : ManagerOps State Item Ctx NS Y M) (ctx : Ctx) (l : List NS) (m : M) : M :=
  l.foldl (expandStep ops ctx) m

/-- `Searcher::next` (`src/lib.rs:305-322`) with a fuel bound on the number
of loop iterations: pop the next frontier item; if its state is a solution,
yield the packaged result; otherwise register it as the current state,
expand its successors, and continue. -/
def searcherNext {State Item Ctx NS Y M : Type}
    (ops : ManagerOps State Item Ctx NS Y M) (isSol : State → Bool) :
    Nat → M → StepResult Y M
  | 0, m => .outOfFuel m
  | fuel + 1, m =>
    match ops.popState m with
    | none => .exhausted m
    | some (cur, m1) =>
      if isSol (ops.itemState cur) then
        .found (ops.prepareResultFrom m1 cur) m1
      else
        let c := ops.registerCurrentState m1 cur
        searcherNext ops isSol fuel
          (expandFold ops c.1 (ops.nextStatesIter (ops.itemState cur)) c.2)

/-- One complete non-yielding iteration of the driver loop: a pop of a
non-solution item followed by registration and expansion. -/
inductive IterStep {State Item Ctx NS Y M : Type}
    (ops : ManagerOps State Item Ctx NS Y M) (isSol : State → Bool) : M → M → Prop
  | mk {m : M} {cur : Item} {m1 : M} :
      ops.popState m = some (cur, m1) →
      isSol (ops.itemState cur) = false →
      IterStep ops isSol m
        (expandFold ops (ops.registerCurrentState m1 cur).1
          (ops.nextStatesIter (ops.itemState cur))
          (ops.registerCurrentState m1 cur).2)

/-- Manager states the driver loop can pass through, starting from `m`. -/
def DriverReach {State Item Ctx NS Y M : Type}
    (ops : ManagerOps State Item Ctx NS Y M) (isSol : State → Bool) : M → M → Prop :=
  Relation.ReflTransGen (IterStep ops isSol)

section DriverLemmas

variable {State Item Ctx NS Y M : Type}
variable {ops : ManagerOps State Item Ctx NS Y M} {isSol : State → Bool}

/-- Analysis of a successful `Searcher::next` run: some loop iterations were
executed, and then an item whose state satisfies the solution predicate was
popped and packaged. -/
theorem searcherNext_found_elim {fuel : Nat} {m : M} {y : Y} {m' : M}
    (h : searcherNext ops isSol fuel m = .found y m') :
    ∃ m₀ cur, DriverReach ops isSol m m₀ ∧
      ops.popState m₀ = some (cur, m') ∧
      isSol (ops.itemState cur) = true ∧
      y = ops.prepareResultFrom m' cur := by
  induction fuel generalizing m with
  | zero => simp [searcherNext] at h
  | succ fuel ih =>
    rw [searcherNext] at h
    rcases hpop : ops.popState m with _ | ⟨cur, m1⟩ <;> rw [hpop] at h <;> dsimp only at h
    · simp at h
    · by_cases hsol : isSol (ops.itemState cur) = true
      · rw [if_pos hsol] at h
        cases h
        exact ⟨m, cur, Relation.ReflTransGen.refl, hpop, hsol, rfl⟩
      · rw [if_neg hsol] at h
        obtain ⟨m₀, cur', hreach, h1, h2, h3⟩ := ih h
        refine ⟨m₀, cur', Relation.ReflTransGen.head ?_ hreach, h1, h2, h3⟩
        exact IterStep.mk hpop (by simpa using hsol)

/-- Analysis of an exhausted run: the final manager is loop-reachable and
its frontier pop yields nothing. -/
theorem searcherNext_exhausted_elim {fuel : Nat} {m m' : M}
    (h : searcherNext ops isSol fuel m = .exhausted m') :
    DriverReach ops isSol m m' ∧ ops.popState m' = none := by
  induction fuel generalizing m with
  | zero => simp [searcherNext] at h
  | succ fuel ih =>
    rw [searcherNext] at h
    rcases hpop : ops.popState m with _ | ⟨cur, m1⟩ <;> rw [hpop] at h <;> dsimp only at h
    · cases h
      exact ⟨Relation.ReflTransGen.refl, hpop⟩
    · by_cases hsol : isSol (ops.itemState cur) = true
      · rw [if_pos hsol] at h; cases h
      · rw [if_neg hsol] at h
        obtain ⟨hreach, hnone⟩ := ih h
        refine ⟨Relation.ReflTransGen.head ?_ hreach, hnone⟩
        exact IterStep.mk hpop (by simpa using hsol)

/-- When the frontier pop yields nothing, the driver reports exhaustion at
once, leaving the manager untouched. -/
theorem searcherNext_of_pop_none {m : M} (h : ops.popState m = none)
    (fuel : Nat) : searcherNext ops isSol (fuel + 1) m = .exhausted m := by
  rw [searcherNext, h]

/-- If the driver preserves an invariant across loop iterations, the
invariant transfers along `DriverReach`. -/
theorem DriverReach.preserve {Inv : M → Prop}
    (pres : ∀ ma mb, IterStep ops isSol ma mb → Inv ma → Inv mb)
    {m m' : M} (h : DriverReach ops isSol m m') (base : Inv m) : Inv m' := by
  induction h with
  | refl => exact base
  | tail _ hstep ih => exact pres _ _ hstep ih

end DriverLemmas

/-! ### Plain paths of a `SearchSpace` -/

/-- A list of steps, each a `next_states` successor of the previous state,
starting from `s`. -/
def Steps {S : Type} (sp : SearchSpace S) : S → List S → Prop
  | _, [] => True
  | s, t :: r => t ∈ sp.nextStates s ∧ Steps sp t r

/-- The final state of a step list. -/
def stepsEnd {S : Type} : S → List S → S
  | s, [] => s
  | _, t :: r => stepsEnd t r

section StepsLemmas

variable {S : Type} {sp : SearchSpace S}

theorem stepsEnd_append_single (s : S) (l : List S) (t : S) :
    stepsEnd s (l ++ [t]) = t := by
  induction l generalizing s with
  | nil => rfl
  | cons x r ih => exact ih x

theorem steps_append_elim {s : S} {l : List S} {t : S}
    (h : Steps sp s (l ++ [t])) :
    Steps sp s l ∧ t ∈ sp.nextStates (stepsEnd s l) := by
  induction l generalizing s with
  | nil => exact ⟨trivial, h.1⟩
  | cons x r ih =>
    obtain ⟨h1, h2⟩ := h
    obtain ⟨h3, h4⟩ := ih h2
    exact ⟨⟨h1, h3⟩, h4⟩

end StepsLemmas

/-! ### A frame for deduplicating managers

The four hashable manager variants share one argument for termination and
completeness on finite spaces.  A `DedupFrame` records how a manager's
state projects to its visited set and the multiset of frontier states, and
how each `ExplorationManager` operation acts on those projections. -/

structure DedupFrame (State Item Ctx NS Y M : Type) [DecidableEq State]
    (ops : ManagerOps State Item Ctx NS Y M) (succs : State → List State) where
  expl : M → Finset State
  fr : M → Multiset State
  nsState : NS → State
  pop_none : ∀ m, ops.popState m = none → fr m = 0
  pop_some : ∀ m it m', ops.popState m = some (it, m') →
    fr m = ops.itemState it ::ₘ fr m' ∧ expl m' = expl m
  valid_true : ∀ m it m', ops.validState m it = (true, m') →
    ops.itemState it ∉ expl m ∧
    expl m' = insert (ops.itemState it) (expl m) ∧ fr m' = fr m
  valid_false : ∀ m it m', ops.validState m it = (false, m') →
    ops.itemState it ∈ expl m ∧ m' = m
  place_fr : ∀ m it, fr (ops.placeState m it) = ops.itemState it ::ₘ fr m
  place_expl : ∀ m it, expl (ops.placeState m it) = expl m
  register_fr : ∀ m it, fr (ops.registerCurrentState m it).2 = fr m
  register_expl : ∀ m it, expl (ops.registerCurrentState m it).2 = expl m
  prep_state : ∀ m ctx ns, ops.itemState (ops.prepareState m ctx ns) = nsState ns
  ns_iter : ∀ s, (ops.nextStatesIter s).map nsState = succs s

section DedupFrameLemmas

variable {State Item Ctx NS Y M : Type} [DecidableEq State]
variable {ops : ManagerOps State Item Ctx NS Y M} {succs : State → List State}
variable (F : DedupFrame State Item Ctx NS Y M ops succs)

/-- One expansion step either rejects (no change, state already visited) or
admits (state freshly inserted into the visited set and pushed). -/
theorem DedupFrame.step_cases (ctx : Ctx) (m : M) (ns : NS) :
    (F.expl (expandStep ops ctx m ns) = F.expl m ∧
      F.fr (expandStep ops ctx m ns) = F.fr m ∧ F.nsState ns ∈ F.expl m) ∨
    (F.expl (expandStep ops ctx m ns) = insert (F.nsState ns) (F.expl m) ∧
      F.fr (expandStep ops ctx m ns) = F.nsState ns ::ₘ F.fr m ∧
      F.nsState ns ∉ F.expl m) := by
  unfold expandStep
  rcases hv : ops.validState m (ops.prepareState m ctx ns) with ⟨b, m₁⟩
  cases b
  · obtain ⟨hmem, heq⟩ := F.valid_false m _ m₁ hv
    rw [F.prep_state] at hmem
    subst heq
    exact Or.inl ⟨rfl, rfl, hmem⟩
  · obtain ⟨hmem, hexpl, hfr⟩ := F.valid_true m _ m₁ hv
    rw [F.prep_state] at hmem hexpl
    refine Or.inr ⟨?_, ?_, hmem⟩
    · rw [F.place_expl, hexpl]
    · rw [F.place_fr, hfr, F.prep_state]

theorem DedupFrame.fold_expl_mono (ctx : Ctx) (l : List NS) (m : M) :
    F.expl m ⊆ F.expl (expandFold ops ctx l m) := by
  induction l generalizing m with
  | nil => exact Finset.Subset.refl _
  | cons x t ih =>
    refine Finset.Subset.trans ?_ (ih (expandStep ops ctx m x))
    rcases F.step_cases ctx m x with ⟨he, _, _⟩ | ⟨he, _, _⟩
    · rw [he]
    · rw [he]
      exact Finset.subset_insert _ _

theorem DedupFrame.fold_fr_mono (ctx : Ctx) (l : List NS) (m : M) :
    ∀ s ∈ F.fr m, s ∈ F.fr (expandFold ops ctx l m) := by
  induction l generalizing m with
  | nil => exact fun s hs => hs
  | cons x t ih =>
    intro s hs
    refine ih (expandStep ops ctx m x) s ?_
    rcases F.step_cases ctx m x with ⟨_, hf, _⟩ | ⟨_, hf, _⟩
    · rw [hf]
      exact hs
    · rw [hf]
      exact Multiset.mem_cons_of_mem hs

theorem DedupFrame.fold_covers (ctx : Ctx) (l : List NS) (m : M) :
    ∀ ns ∈ l, F.nsState ns ∈ F.expl (expandFold ops ctx l m) := by
  induction l generalizing m with
  | nil => intro ns h; cases h
  | cons x t ih =>
    intro ns hns
    rcases List.mem_cons.mp hns with rfl | hns
    · refine F.fold_expl_mono ctx t (expandStep ops ctx m ns) ?_
      rcases F.step_cases ctx m ns with ⟨he, _, hmem⟩ | ⟨he, _, _⟩
      · rw [he]
        exact hmem
      · rw [he]
        exact Finset.mem_insert_self _ _
    · exact ih (expandStep ops ctx m x) ns hns

theorem DedupFrame.fold_expl_decomp (ctx : Ctx) (l : List NS) (m : M) :
    ∀ s ∈ F.expl (expandFold ops ctx l m),
      s ∈ F.expl m ∨ s ∈ F.fr (expandFold ops ctx l m) := by
  induction l generalizing m with
  | nil => exact fun s hs => Or.inl hs
  | cons x t ih =>
    intro s hs
    rcases ih (expandStep ops ctx m x) s hs with hs' | hs'
    · rcases F.step_cases ctx m x with ⟨he, _, _⟩ | ⟨he, hf, _⟩
      · rw [he] at hs'
        exact Or.inl hs'
      · rw [he] at hs'
        rcases Finset.mem_insert.mp hs' with rfl | hs''
        · refine Or.inr (F.fold_fr_mono ctx t (expandStep ops ctx m x) _ ?_)
          rw [hf]
          exact Multiset.mem_cons_self _ _
        · exact Or.inl hs''
    · exact Or.inr hs'

theorem DedupFrame.fold_fr_in_expl (ctx : Ctx) (l : List NS) (m : M)
    (h : ∀ s ∈ F.fr m, s ∈ F.expl m) :
    ∀ s ∈ F.fr (expandFold ops ctx l m), s ∈ F.expl (expandFold ops ctx l m) := by
  induction l generalizing m with
  | nil => exact h
  | cons x t ih =>
    refine ih (expandStep ops ctx m x) ?_
    intro s hs
    rcases F.step_cases ctx m x with ⟨he, hf, _⟩ | ⟨he, hf, _⟩
    · rw [hf] at hs
      rw [he]
      exact h s hs
    · rw [hf] at hs
      rw [he]
      rcases Multiset.mem_cons.mp hs with rfl | hs'
      · exact Finset.mem_insert_self _ _
      · exact Finset.mem_insert_of_mem (h s hs')

theorem DedupFrame.fold_expl_in_R {R : Finset State} (ctx : Ctx) (l : List NS)
    (m : M) (hm : F.expl m ⊆ R) (hl : ∀ ns ∈ l, F.nsState ns ∈ R) :
    F.expl (expandFold ops ctx l m) ⊆ R := by
  induction l generalizing m with
  | nil => exact hm
  | cons x t ih =>
    refine ih (expandStep ops ctx m x) ?_ (fun ns hns => hl ns (List.mem_cons_of_mem _ hns))
    rcases F.step_cases ctx m x with ⟨he, _, _⟩ | ⟨he, _, _⟩
    · rw [he]
      exact hm
    · rw [he]
      exact Finset.insert_subset (hl x (List.mem_cons_self _ _)) hm

/-- Termination potential: frontier size plus twice the unvisited capacity. -/
def DedupFrame.pot (R : Finset State) (m : M) : Nat :=
  Multiset.card (F.fr m) + 2 * (R.card - (F.expl m).card)

theorem DedupFrame.fold_pot {R : Finset State} (ctx : Ctx) (l : List NS) (m : M)
    (hm : F.expl m ⊆ R) (hl : ∀ ns ∈ l, F.nsState ns ∈ R) :
    F.pot R (expandFold ops ctx l m) ≤ F.pot R m := by
  induction l generalizing m with
  | nil => exact Nat.le_refl _
  | cons x t ih =>
    have hstep : F.pot R (expandStep ops ctx m x) ≤ F.pot R m ∧
        F.expl (expandStep ops ctx m x) ⊆ R := by
      rcases F.step_cases ctx m x with ⟨he, hf, _⟩ | ⟨he, hf, hmem⟩
      · rw [DedupFrame.pot, DedupFrame.pot, he, hf]
        exact ⟨Nat.le_refl _, hm⟩
      · have hxR : F.nsState x ∈ R := hl x (List.mem_cons_self _ _)
        have hcard : (F.expl m).card < R.card :=
          Finset.card_lt_card (Finset.ssubset_iff_of_subset hm |>.mpr
            ⟨F.nsState x, hxR, hmem⟩)
        rw [DedupFrame.pot, DedupFrame.pot, he, hf]
        rw [Finset.card_insert_of_not_mem hmem]
        simp only [Multiset.card_cons]
        constructor
        · omega
        · exact Finset.insert_subset hxR hm
    refine Nat.le_trans (ih (expandStep ops ctx m x) hstep.2
      (fun ns hns => hl ns (List.mem_cons_of_mem _ hns))) hstep.1

/-- The run invariant of a deduplicating search on a finite closed state
set `R`: frontier states are visited, the visited set stays inside `R` and
contains the start, and every visited state is either still on the frontier
or fully expanded (a non-solution whose successors are all visited). -/
def DedupFrame.Inv (R : Finset State) (start : State) (isSol : State → Bool)
    (m : M) : Prop :=
  (∀ s ∈ F.fr m, s ∈ F.expl m) ∧
  F.expl m ⊆ R ∧
  start ∈ F.expl m ∧
  (∀ s ∈ F.expl m, s ∈ F.fr m ∨
    (isSol s = false ∧ ∀ t ∈ succs s, t ∈ F.expl m))

/-- The deduplicating search on a finite successor-closed state set that
contains a reachable solution finds a solution state: with enough fuel, the
driver pops an item whose state satisfies the predicate and yields its
packaged result. -/
theorem DedupFrame.complete {R : Finset State} {start sol : State}
    {isSol : State → Bool}
    (hclosed : ∀ s ∈ R, ∀ t ∈ succs s, t ∈ R)
    (hreach : Relation.ReflTransGen (fun a b => b ∈ succs a) start sol)
    (hsolt : isSol sol = true)
    (huniq : ∀ s ∈ R, isSol s = true → s = sol) :
    ∀ (fuel : Nat) (m : M), F.Inv R start isSol m → F.pot R m < fuel →
      ∃ m₀ cur m', DriverReach ops isSol m m₀ ∧ F.Inv R start isSol m₀ ∧
        ops.popState m₀ = some (cur, m') ∧ ops.itemState cur = sol ∧
        searcherNext ops isSol fuel m =
          .found (ops.prepareResultFrom m' cur) m' := by
  intro fuel
  induction fuel with
  | zero => intro m _ hpot; omega
  | succ fuel ih =>
    intro m hinv hpot
    obtain ⟨hfrexp, hexpR, hstart, hstatus⟩ := hinv
    rcases hpop : ops.popState m with _ | ⟨cur, m1⟩
    · exfalso
      have hfr0 := F.pop_none m hpop
      have hexpand : ∀ s ∈ F.expl m, isSol s = false ∧ ∀ t ∈ succs s, t ∈ F.expl m := by
        intro s hs
        rcases hstatus s hs with hsf | hdone
        · rw [hfr0] at hsf
          cases hsf
        · exact hdone
      have hall : ∀ z, Relation.ReflTransGen (fun a b => b ∈ succs a) start z →
          z ∈ F.expl m := by
        intro z hz
        induction hz with
        | refl => exact hstart
        | tail hab hbc ihr => exact (hexpand _ ihr).2 _ hbc
      have := (hexpand sol (hall sol hreach)).1
      rw [hsolt] at this
      cases this
    · obtain ⟨hfrm, hexp1⟩ := F.pop_some m cur m1 hpop
      have hcurfr : ops.itemState cur ∈ F.fr m := by
        rw [hfrm]
        exact Multiset.mem_cons_self _ _
      have hcurexp : ops.itemState cur ∈ F.expl m := hfrexp _ hcurfr
      have hcurR : ops.itemState cur ∈ R := hexpR hcurexp
      by_cases hsol : isSol (ops.itemState cur) = true
      · have hcursol : ops.itemState cur = sol := huniq _ hcurR hsol
        refine ⟨m, cur, m1, Relation.ReflTransGen.refl,
          ⟨hfrexp, hexpR, hstart, hstatus⟩, hpop, hcursol, ?_⟩
        rw [searcherNext, hpop]
        simp only [hsol, if_true]
      · have hsolf : isSol (ops.itemState cur) = false := by
          simpa using hsol
        set l := ops.nextStatesIter (ops.itemState cur) with hl
        set c := ops.registerCurrentState m1 cur with hc
        set m3 := expandFold ops c.1 l c.2 with hm3
        have hfr2 : F.fr c.2 = F.fr m1 := F.register_fr m1 cur
        have hexp2 : F.expl c.2 = F.expl m1 := F.register_expl m1 cur
        have hlR : ∀ ns ∈ l, F.nsState ns ∈ R := by
          intro ns hns
          have : F.nsState ns ∈ succs (ops.itemState cur) := by
            rw [← F.ns_iter]
            exact List.mem_map_of_mem _ hns
          exact hclosed _ hcurR _ this
        have hexp2R : F.expl c.2 ⊆ R := by
          rw [hexp2, hexp1]
          exact hexpR
        have hinv3 : F.Inv R start isSol m3 := by
          refine ⟨?_, ?_, ?_, ?_⟩
          · refine F.fold_fr_in_expl c.1 l c.2 ?_
            intro s hs
            rw [hfr2] at hs
            rw [hexp2, hexp1]
            refine hfrexp s ?_
            rw [hfrm]
            exact Multiset.mem_cons_of_mem hs
          · exact F.fold_expl_in_R c.1 l c.2 hexp2R hlR
          · refine F.fold_expl_mono c.1 l c.2 ?_
            rw [hexp2, hexp1]
            exact hstart
          · intro s hs
            rcases F.fold_expl_decomp c.1 l c.2 s hs with hold | hnew
            · rw [hexp2, hexp1] at hold
              rcases hstatus s hold with hsfr | hsdone
              · rw [hfrm] at hsfr
                rcases Multiset.mem_cons.mp hsfr with rfl | hsfr1
                · refine Or.inr ⟨hsolf, ?_⟩
                  intro t ht
                  rw [← F.ns_iter] at ht
                  rcases List.mem_map.mp ht with ⟨ns, hns, rfl⟩
                  exact F.fold_covers c.1 l c.2 ns hns
                · refine Or.inl (F.fold_fr_mono c.1 l c.2 s ?_)
                  rw [hfr2]
                  exact hsfr1
              · refine Or.inr ⟨hsdone.1, ?_⟩
                intro t ht
                refine F.fold_expl_mono c.1 l c.2 ?_
                rw [hexp2, hexp1]
                exact hsdone.2 t ht
            · exact Or.inl hnew
        have hpot3 : F.pot R m3 < fuel := by
          have hfold := F.fold_pot c.1 l c.2 hexp2R hlR
          have hm1pot : F.pot R c.2 + 1 = F.pot R m := by
            rw [DedupFrame.pot, DedupFrame.pot, hfr2, hexp2, hexp1, hfrm]
            simp only [Multiset.card_cons]
            omega
          rw [← hm3] at hfold
          omega
        obtain ⟨m₀, cur', m', hreach', hinv', hpop', hsol', hrun⟩ :=
          ih m3 hinv3 hpot3
        refine ⟨m₀, cur', m', ?_, hinv', hpop', hsol', ?_⟩
        · refine Relation.ReflTransGen.head ?_ hreach'
          rw [hm3, hc, hl]
          exact IterStep.mk hpop hsolf
        · rw [searcherNext, hpop]
          simp only [hsolf]
          rw [if_neg (by simp)]
          exact hrun

end DedupFrameLemmas

/-! ### Manager variants -/

namespace UnguidedNoRouteHashable

/-- `src/search/unguided/no_route/hashable.rs`: unguided, solution-only
yielding, prior-state-culling manager. -/
structure Manager (S : Type) where
  explored : List S
  fringe : List S
  depthFirst : Bool
deriving DecidableEq

/-- `Manager::initialize`: seed `explored` and the fringe with the initial
state; breadth-first (`depth_first = false`) by default. -/
def initManager {S : Type} (s : S) : Manager S :=
  { explored := [s], fringe := [s], depthFirst := false }

/-- The `ExplorationManager` impl for the unguided / no-route / hashable
manager. -/
def ops {S : Type} [DecidableEq S] (sp : SearchSpace S) :
    ManagerOps S (NoContext S) Unit S S (Manager S) where
  popState m :=
    match (match m.depthFirst with
      | true => popBack m.fringe
      | false => popFront m.fringe) with
    | none => none
    | some (a, rest) => some (⟨a⟩, { m with fringe := rest })
  prepareResultFrom _ it := it.state
  validState m it :=
    if it.state ∈ m.explored then (false, m)
    else (true, { m with explored := it.state :: m.explored })
  placeState m it := { m with fringe := pushBack m.fringe it.state }
  registerCurrentState m _ := ((), m)
  prepareState _ _ s := ⟨s⟩
  nextStatesIter := sp.nextStates
  itemState it := it.state

end UnguidedNoRouteHashable

namespace UnguidedNoRouteUnhashable

/-- `src/search/unguided/no_route/unhashable.rs`: unguided, solution-only
yielding manager with no explored-state culling.  (In that source snapshot
the successor and goal functions are fields of the manager; they are
behaviourally the `SearchSpace` parameter here.) -/
structure Manager (S : Type) where
  fringe : List S
  depthFirst : Bool
deriving DecidableEq

/-- `Manager::initialize` for the unhashable unguided manager. -/
def initManager {S : Type} (s : S) : Manager S :=
  { fringe := [s], depthFirst := false }

/-- The `ExplorationManager` impl for the unguided / no-route / unhashable
manager: `valid_state` is constantly `true`. -/
def ops {S : Type} (sp : SearchSpace S) :
    ManagerOps S (NoContext S) Unit S S (Manager S) where
  popState m :=
    match (match m.depthFirst with
      | true => popBack m.fringe
      | false => popFront m.fringe) with
    | none => none
    | some (a, rest) => some (⟨a⟩, { m with fringe := rest })
  prepareResultFrom _ it := it.state
  validState m _ := (true, m)
  placeState m it := { m with fringe := pushBack m.fringe it.state }
  registerCurrentState m _ := ((), m)
  prepareState _ _ s := ⟨s⟩
  nextStatesIter := sp.nextStates
  itemState it := it.state

end UnguidedNoRouteUnhashable

namespace UnguidedRouteHashable

/-- `src/search/unguided/route/hashable.rs`: unguided, route-yielding,
prior-state-culling manager. -/
structure Manager (S : Type) where
  explored : List S
  fringe : List (StateParent S)
  parents : List (StateParent S)
  depthFirst : Bool
deriving DecidableEq

/-- `Manager::initialize`: the initial `StateParent` pair (root, no parent)
seeds the fringe and the arena; the initial state seeds `explored`. -/
def initManager {S : Type} (s : S) : Manager S :=
  { explored := [s]
    fringe := [{ state := s, parent := none }]
    parents := [{ state := s, parent := none }]
    depthFirst := false }

/-- The `ExplorationManager` impl for the unguided / route / hashable
manager (route packaging via `prepare_result_from_state_parent_map`). -/
def ops {S : Type} [DecidableEq S] (sp : SearchSpace S) :
    ManagerOps S (StateParent S) Nat S (Option (List S)) (Manager S) where
  popState m :=
    match (match m.depthFirst with
      | true => popBack m.fringe
      | false => popFront m.fringe) with
    | none => none
    | some (a, rest) => some (a, { m with fringe := rest })
  prepareResultFrom m it := prepareResultFromStateParentMap m.parents it
  validState m it :=
    if it.state ∈ m.explored then (false, m)
    else (true, { m with explored := it.state :: m.explored })
  placeState m it := { m with fringe := pushBack m.fringe it }
  registerCurrentState m it :=
    (m.parents.length, { m with parents := m.parents ++ [it] })
  prepareState _ ctx s := { state := s, parent := some ctx }
  nextStatesIter := sp.nextStates
  itemState it := it.state

end UnguidedRouteHashable

namespace GuidedNoRouteHashable

/-- `src/search/guided/no_route/hashable.rs`: guided, solution-only
yielding, prior-state-culling manager with a score-ordered heap fringe. -/
structure Manager (S C : Type) where
  explored : List S
  fringe : List (OrderedSearchable S C)
deriving DecidableEq

/-- `Manager::initialize`: seed the heap with the scored initial state. -/
def initManager {S C : Type} (score : S → C) (s : S) : Manager S C :=
  { explored := [s], fringe := [osOfState score s] }

/-- The `ExplorationManager` impl for the guided / no-route / hashable
manager.  The space's `score` supplies the `Scoreable` impl. -/
def ops {S C : Type} [DecidableEq S] [LinearOrder C]
    (sp : SearchSpace S) (score : S → C) :
    ManagerOps S (NoContext S) Unit S S (Manager S C) where
  popState m :=
    (heapPop osCmp m.fringe).map fun p => (⟨p.1.state⟩, { m with fringe := p.2 })
  prepareResultFrom _ it := it.state
  validState m it :=
    if it.state ∈ m.explored then (false, m)
    else (true, { m with explored := it.state :: m.explored })
  placeState m it := { m with fringe := heapPush m.fringe (osOfState score it.state) }
  registerCurrentState m _ := ((), m)
  prepareState _ _ s := ⟨s⟩
  nextStatesIter := sp.nextStates
  itemState it := it.state

end GuidedNoRouteHashable

namespace AStarRouteHashable

/-- `src/search/a_star/route/hashable.rs`: A*-based, route-yielding,
prior-state-culling manager. -/
structure Manager (S C : Type) where
  explored : List S
  fringe : List (OrderedSearchable (StateParentCumulativeCost S C) C)
  parents : List (StateParent S)
deriving DecidableEq

/-- `Manager::initialize`: the root item carries cumulative cost zero and is
pushed with priority `initial_state.score()`; the arena holds its
`StateParent` projection. -/
def initManager {S C : Type} [Zero C] (sp : CostSpace S C) (s : S) : Manager S C :=
  { explored := [s]
    fringe := [{ state := { state := s, parent := none, cumulativeCost := 0 }
                 score := sp.score s }]
    parents := [{ state := s, parent := none }] }

/-- The `ExplorationManager` impl for the A* / route / hashable manager:
new entries are pushed with priority `item.state.score() +
item.cumulative_cost`, the registered context is the new arena index paired
with the expanded item's cumulative cost, and a successor's cumulative cost
is the context cost plus the traversal cost. -/
def ops {S C : Type} [DecidableEq S] [LinearOrder C] [Add C]
    (sp : CostSpace S C) :
    ManagerOps S (StateParentCumulativeCost S C) (Nat × C) (S × C)
      (Option (List S)) (Manager S C) where
  popState m :=
    (heapPop osCmp m.fringe).map fun p => (p.1.state, { m with fringe := p.2 })
  prepareResultFrom m it := prepareResultFromStateParentMap m.parents it.toStateParent
  validState m it :=
    if it.state ∈ m.explored then (false, m)
    else (true, { m with explored := it.state :: m.explored })
  placeState m it :=
    let entry := { state := it, score := sp.score it.state + it.cumulativeCost :
      OrderedSearchable _ C }
    { m with fringe := heapPush m.fringe entry }
  registerCurrentState m it :=
    ((m.parents.length, it.cumulativeCost),
      { m with parents := m.parents ++ [it.toStateParent] })
  prepareState _ ctx ns :=
    { state := ns.1, parent := some ctx.1, cumulativeCost := ctx.2 + ns.2 }
  nextStatesIter := sp.nextStatesWithCosts
  itemState it := it.state

end AStarRouteHashable

namespace AStarRouteUnhashable

/-- `src/search/a_star/route/unhashable.rs`: A*-based, route-yielding
manager with no explored-state culling. -/
structure Manager (S C : Type) where
  fringe : List (OrderedSearchable (StateParentCumulativeCost S C) C)
  parents : List (StateParent S)
deriving DecidableEq

/-- `Manager::initialize` for the unhashable A* route manager. -/
def initManager {S C : Type} [Zero C] (sp : CostSpace S C) (s : S) : Manager S C :=
  { fringe := [{ state := { state := s, parent := none, cumulativeCost := 0 }
                 score := sp.score s }]
    parents := [{ state := s, parent := none }] }

/-- The `ExplorationManager` impl for the A* / route / unhashable manager:
identical to the hashable one except that `valid_state` is constantly
`true`. -/
def ops {S C : Type} [LinearOrder C] [Add C] (sp : CostSpace S C) :
    ManagerOps S (StateParentCumulativeCost S C) (Nat × C) (S × C)
      (Option (List S)) (Manager S C) where
  popState m :=
    (heapPop osCmp m.fringe).map fun p => (p.1.state, { m with fringe := p.2 })
  prepareResultFrom m it := prepareResultFromStateParentMap m.parents it.toStateParent
  validState m _ := (true, m)
  placeState m it :=
    let entry := { state := it, score := sp.score it.state + it.cumulativeCost :
      OrderedSearchable _ C }
    { m with fringe := heapPush m.fringe entry }
  registerCurrentState m it :=
    ((m.parents.length, it.cumulativeCost),
      { m with parents := m.parents ++ [it.toStateParent] })
  prepareState _ ctx ns :=
    { state := ns.1, parent := some ctx.1, cumulativeCost := ctx.2 + ns.2 }
  nextStatesIter := sp.nextStatesWithCosts
  itemState it := it.state

end AStarRouteUnhashable

namespace AStarNoRouteUnhashable

/-- `src/search/a_star/no_route/unhashable.rs`: A*-based, solution-only
yielding manager with no explored-state culling. -/
structure Manager (S C : Type) where
  fringe : List (OrderedSearchable (StateCumulativeCost S C) C)
deriving DecidableEq

/-- `Manager::initialize` for the no-route unhashable A* manager. -/
def initManager {S C : Type} [Zero C] (sp : CostSpace S C) (s : S) : Manager S C :=
  { fringe := [{ state := { state := s, cumulativeCost := 0 }
                 score := sp.score s }] }

/-- The `ExplorationManager` impl for the A* / no-route / unhashable
manager: the registered context is just the expanded item's cumulative
cost. -/
def ops {S C : Type} [LinearOrder C] [Add C] (sp : CostSpace S C) :
    ManagerOps S (StateCumulativeCost S C) C (S × C) S (Manager S C) where
  popState m :=
    (heapPop osCmp m.fringe).map fun p => (p.1.state, { m with fringe := p.2 })
  prepareResultFrom _ it := it.state
  validState m _ := (true, m)
  placeState m it :=
    let entry := { state := it, score := sp.score it.state + it.cumulativeCost :
      OrderedSearchable _ C }
    { m with fringe := heapPush m.fringe entry }
  registerCurrentState m it := (it.cumulativeCost, m)
  prepareState _ cc ns := { state := ns.1, cumulativeCost := cc + ns.2 }
  nextStatesIter := sp.nextStatesWithCosts
  itemState it := it.state

end AStarNoRouteUnhashable

/-! ### Container lemmas -/

section ContainerLemmas

variable {A : Type}

theorem popFront_eq_none {l : List A} : popFront l = none ↔ l = [] := by
  cases l <;> simp [popFront]

theorem popFront_eq_some {l l' : List A} {a : A} :
    popFront l = some (a, l') ↔ l = a :: l' := by
  cases l <;> simp [popFront]

theorem popBack_eq_none {l : List A} : popBack l = none ↔ l = [] := by
  cases l with
  | nil => simp [popBack]
  | cons a t =>
    simp only [popBack]
    rcases h : popBack t with _ | ⟨b, t'⟩ <;> simp

theorem popBack_eq_some {l l' : List A} {a : A}
    (h : popBack l = some (a, l')) : l = l' ++ [a] := by
  induction l generalizing a l' with
  | nil => simp [popBack] at h
  | cons x t ih =>
    rw [popBack] at h
    rcases ht : popBack t with _ | ⟨b, t'⟩ <;> rw [ht] at h
    · rw [popBack_eq_none] at ht
      cases h
      simp [ht]
    · cases h
      simp [ih ht]

theorem popBack_concat (l : List A) (a : A) : popBack (l ++ [a]) = some (a, l) := by
  induction l with
  | nil => rfl
  | cons x t ih => rw [List.cons_append, popBack, ih]

theorem heapPop_eq_none {cmp : A → A → Ordering} {l : List A} :
    heapPop cmp l = none ↔ l = [] := by
  cases l with
  | nil => simp [heapPop]
  | cons a t =>
    simp only [heapPop]
    rcases h : heapPop cmp t with _ | ⟨b, t'⟩ <;> simp
    by_cases hc : cmp a b = .lt <;> simp [hc]

theorem heapPop_perm {cmp : A → A → Ordering} {l l' : List A} {a : A}
    (h : heapPop cmp l = some (a, l')) : l.Perm (a :: l') := by
  induction l generalizing a l' with
  | nil => simp [heapPop] at h
  | cons x t ih =>
    rw [heapPop] at h
    rcases ht : heapPop cmp t with _ | ⟨b, t'⟩ <;> rw [ht] at h
    · rw [heapPop_eq_none] at ht
      cases h
      simp [ht]
    · by_cases hc : cmp x b = .lt <;> simp [hc] at h
      · obtain ⟨rfl, rfl⟩ := h
        exact ((ih ht).cons x).trans (List.Perm.swap _ _ _)
      · obtain ⟨rfl, rfl⟩ := h
        exact List.Perm.refl _

/-- The element yielded by `heapPop` under the inverted `OrderedSearchable`
comparison carries a minimal score. -/
theorem heapPop_osCmp_min {T C : Type} [LinearOrder C]
    {l l' : List (OrderedSearchable T C)} {e : OrderedSearchable T C}
    (h : heapPop osCmp l = some (e, l')) :
    ∀ x ∈ l, e.score ≤ x.score := by
  induction l generalizing e l' with
  | nil => simp [heapPop] at h
  | cons a t ih =>
    rw [heapPop] at h
    rcases ht : heapPop osCmp t with _ | ⟨b, t'⟩ <;> rw [ht] at h
    · rw [heapPop_eq_none] at ht
      subst ht
      cases h
      intro x hx
      simp at hx
      simp [hx]
    · by_cases hc : osCmp a b = .lt <;> simp [hc] at h
      · obtain ⟨rfl, rfl⟩ := h
        have hba : b.score < a.score := by
          simpa [osCmp, compare_lt_iff_lt] using hc
        intro x hx
        rcases List.mem_cons.mp hx with rfl | hx
        · exact hba.le
        · exact ih ht x hx
      · obtain ⟨rfl, rfl⟩ := h
        have hab : a.score ≤ b.score := by
          have := hc
          simp only [osCmp, compare_lt_iff_lt] at this
          exact le_of_not_lt this
        intro x hx
        rcases List.mem_cons.mp hx with rfl | hx
        · exact le_rfl
        · exact hab.trans (ih ht x hx)

end ContainerLemmas

/-- Auxiliary: `compare` on a linear order, with the arguments exchanged, is
the `swap` of the original comparison. -/
theorem compare_comm_swap {C : Type} [LinearOrder C] (a b : C) :
    compare b a = (compare a b).swap := by
  rcases lt_trichotomy a b with h | h | h
  · rw [compare_lt_iff_lt.2 h, compare_gt_iff_gt.2 h]
    rfl
  · rw [compare_eq_iff_eq.2 h, compare_eq_iff_eq.2 h.symm]
    rfl
  · rw [compare_gt_iff_gt.2 h, compare_lt_iff_lt.2 h]
    rfl

/-- C6: equality and ordering of the `OrderedSearchable` wrapper are
determined by the carried scores alone (the wrapped states are ignored),
the ordering is the exact reverse of the scores' natural order, and the
max-first heap therefore always pops a lowest-scored entry first. -/
theorem c6_ordering_wrapper_by_inverted_scores {T C : Type} [LinearOrder C] :
    (∀ (a b : OrderedSearchable T C) (x y : T),
      osEq a b = osEq { state := x, score := a.score } { state := y, score := b.score } ∧
      osCmp a b = osCmp { state := x, score := a.score } { state := y, score := b.score }) ∧
    (∀ a b : OrderedSearchable T C, osEq a b = true ↔ a.score = b.score) ∧
    (∀ a b : OrderedSearchable T C, osCmp a b = (compare a.score b.score).swap) ∧
    (∀ (l l' : List (OrderedSearchable T C)) (e : OrderedSearchable T C),
      heapPop osCmp l = some (e, l') → ∀ x ∈ l, e.score ≤ x.score) := by
  refine ⟨fun a b x y => ⟨rfl, rfl⟩, fun a b => ?_, fun a b => ?_, ?_⟩
  · simp [osEq]
  · rw [osCmp, compare_comm_swap]
  · intro l l' e h x hx
    exact heapPop_osCmp_min h x hx

/-- C6 witness: on a concrete two-entry heap the popped entry has the
smaller score. -/
theorem c6_ordering_wrapper_by_inverted_scores_witness :
    (heapPop osCmp
        [({ state := 0, score := 5 } : OrderedSearchable Nat Nat),
          { state := 1, score := 3 }] =
      some ({ state := 1, score := 3 },
        [({ state := 0, score := 5 } : OrderedSearchable Nat Nat)])) ∧
    ({ state := 0, score := 5 } : OrderedSearchable Nat Nat) ∈
      [({ state := 0, score := 5 } : OrderedSearchable Nat Nat),
        { state := 1, score := 3 }] ∧
    (3 : Nat) ≤ 5 := by
  refine ⟨by decide, by decide, ?_⟩
  have h := (@c6_ordering_wrapper_by_inverted_scores Nat Nat _).2.2.2
    [{ state := 0, score := 5 }, { state := 1, score := 3 }]
    [{ state := 0, score := 5 }] { state := 1, score := 3 } (by decide)
    { state := 0, score := 5 } (by decide)
  exact h

/-- C9: on unguided managers `initialize` leaves `depth_first` off
(breadth-first default); `pop_state` takes from the front of the deque when
`depth_first` is `false` and from the back when it is `true`, while
`place_state` always appends at the back — so `false` gives FIFO
(breadth-first) and `true` gives LIFO (depth-first) order. -/
theorem c9_unguided_deque_policy {S : Type} [DecidableEq S] (sp : SearchSpace S) :
    (∀ s : S, (UnguidedNoRouteHashable.initManager s).depthFirst = false ∧
      (UnguidedNoRouteUnhashable.initManager s).depthFirst = false ∧
      (UnguidedRouteHashable.initManager s).depthFirst = false) ∧
    (∀ m : UnguidedNoRouteHashable.Manager S,
      ((UnguidedNoRouteHashable.ops sp).popState m = none ↔ m.fringe = []) ∧
      (m.depthFirst = false → ∀ a rest, m.fringe = a :: rest →
        (UnguidedNoRouteHashable.ops sp).popState m =
          some (⟨a⟩, { m with fringe := rest })) ∧
      (m.depthFirst = true → ∀ a rest, m.fringe = rest ++ [a] →
        (UnguidedNoRouteHashable.ops sp).popState m =
          some (⟨a⟩, { m with fringe := rest }))) ∧
    (∀ (m : UnguidedNoRouteHashable.Manager S) (it : NoContext S),
      ((UnguidedNoRouteHashable.ops sp).placeState m it).fringe =
        m.fringe ++ [it.state]) ∧
    (∀ (m : UnguidedRouteHashable.Manager S) (it : StateParent S),
      ((UnguidedRouteHashable.ops sp).placeState m it).fringe =
        m.fringe ++ [it]) ∧
    (∀ (m : UnguidedNoRouteUnhashable.Manager S) (it : NoContext S),
      ((UnguidedNoRouteUnhashable.ops sp).placeState m it).fringe =
        m.fringe ++ [it.state]) := by
  refine ⟨fun s => ⟨rfl, rfl, rfl⟩, fun m => ⟨?_, ?_, ?_⟩, fun m it => rfl,
    fun m it => rfl, fun m it => rfl⟩
  · cases hf : m.depthFirst <;>
      simp [UnguidedNoRouteHashable.ops, hf, popFront_eq_none, popBack_eq_none]
    · rcases h : popFront m.fringe with _ | p <;> simp [popFront_eq_none] at h ⊢
      · exact h
      · intro he
        rw [he] at h
        simp [popFront] at h
    · rcases h : popBack m.fringe with _ | p <;> simp [popBack_eq_none] at h ⊢
      · exact h
      · intro he
        rw [he] at h
        simp [popBack] at h
  · intro hf a rest he
    simp [UnguidedNoRouteHashable.ops, hf, he, popFront]
  · intro hf a rest he
    have hb : popBack m.fringe = some (a, rest) := by
      rw [he]
      clear he
      induction rest with
      | nil => simp [popBack]
      | cons x t ih => rw [List.cons_append, popBack, ih]
    simp [UnguidedNoRouteHashable.ops, hf, hb]

/-- C9 witness: a concrete manager exercising the FIFO pop. -/
theorem c9_unguided_deque_policy_witness :
    ({ explored := [0], fringe := [0, 1], depthFirst := false } :
        UnguidedNoRouteHashable.Manager Nat).depthFirst = false ∧
    ({ explored := [0], fringe := [0, 1], depthFirst := false } :
        UnguidedNoRouteHashable.Manager Nat).fringe = 0 :: [1] ∧
    (UnguidedNoRouteHashable.ops ⟨fun _ => [], fun _ => false⟩).popState
        ({ explored := [0], fringe := [0, 1], depthFirst := false } :
          UnguidedNoRouteHashable.Manager Nat) =
      some (⟨0⟩, { explored := [0], fringe := [1], depthFirst := false }) := by
  refine ⟨rfl, rfl, ?_⟩
  exact (@c9_unguided_deque_policy Nat _ ⟨fun _ => [], fun _ => false⟩).2.1
    _ |>.2.1 rfl 0 [1] rfl

/-- C10: the blanket `Searchable` impl for `CostSearchable` types yields
exactly the state components of `next_states_with_costs`, in the same
order, with the paired costs discarded; the non-A* managers instantiated at
the derived space consume exactly that successor sequence. -/
theorem c10_blanket_searchable_projects_costs {S C : Type} [DecidableEq S]
    [LinearOrder C] (sp : CostSpace S C) :
    (∀ s : S, (sp.nextStates s).length = (sp.nextStatesWithCosts s).length ∧
      ∀ (i : Nat) (h : i < (sp.nextStates s).length)
        (h' : i < (sp.nextStatesWithCosts s).length),
        (sp.nextStates s).get ⟨i, h⟩ = ((sp.nextStatesWithCosts s).get ⟨i, h'⟩).1) ∧
    (∀ s : S, (UnguidedNoRouteHashable.ops sp.toSearchSpace).nextStatesIter s =
      (sp.nextStatesWithCosts s).map Prod.fst) ∧
    (∀ s : S, (GuidedNoRouteHashable.ops sp.toSearchSpace sp.score).nextStatesIter s =
      (sp.nextStatesWithCosts s).map Prod.fst) := by
  refine ⟨fun s => ⟨?_, ?_⟩, fun s => rfl, fun s => rfl⟩
  · simp [CostSpace.nextStates]
  · intro i h h'
    simp [CostSpace.nextStates]

/-! ### Fine-grained manager operations (the calls `Searcher::next` makes) -/

/-- A single `ExplorationManager` method call, as a relation between the
manager states before and after the call. -/
inductive MgrOp {State Item Ctx NS Y M : Type}
    (ops : ManagerOps State Item Ctx NS Y M) : M → M → Prop
  | pop {m m' : M} {it : Item} : ops.popState m = some (it, m') → MgrOp ops m m'
  | valid {m m' : M} {it : Item} {b : Bool} :
      ops.validState m it = (b, m') → MgrOp ops m m'
  | place (m : M) (it : Item) : MgrOp ops m (ops.placeState m it)
  | register (m : M) (it : Item) : MgrOp ops m (ops.registerCurrentState m it).2

section MgrOpLemmas

variable {State Item Ctx NS Y M : Type}
variable {ops : ManagerOps State Item Ctx NS Y M} {isSol : State → Bool}

theorem expandStep_mgrOps (ctx : Ctx) (m : M) (ns : NS) :
    Relation.ReflTransGen (MgrOp ops) m (expandStep ops ctx m ns) := by
  unfold expandStep
  rcases hv : ops.validState m (ops.prepareState m ctx ns) with ⟨b, m'⟩
  cases b
  · exact Relation.ReflTransGen.single (MgrOp.valid hv)
  · exact Relation.ReflTransGen.head (MgrOp.valid hv)
      (Relation.ReflTransGen.single (MgrOp.place _ _))

theorem expandFold_mgrOps (ctx : Ctx) (l : List NS) (m : M) :
    Relation.ReflTransGen (MgrOp ops) m (expandFold ops ctx l m) := by
  induction l generalizing m with
  | nil => exact Relation.ReflTransGen.refl
  | cons x t ih =>
    exact (expandStep_mgrOps ctx m x).trans (ih (expandStep ops ctx m x))

/-- Every full driver iteration decomposes into `ExplorationManager` method
calls. -/
theorem iterStep_mgrOps {m m' : M} (h : IterStep ops isSol m m') :
    Relation.ReflTransGen (MgrOp ops) m m' := by
  cases h with
  | mk hpop hsol =>
    exact Relation.ReflTransGen.head (MgrOp.pop hpop)
      (Relation.ReflTransGen.head (MgrOp.register _ _) (expandFold_mgrOps _ _ _))

end MgrOpLemmas

/-- C8: for every manager `pop_state` returns `None` exactly when the
frontier is empty, and exhaustion is permanent: once the driver's `next`
reports exhaustion, the manager is left with an empty frontier and every
later call reports exhaustion again without yielding anything. -/
theorem c8_pop_none_iff_empty_and_exhaustion_permanent {S C : Type}
    [DecidableEq S] [LinearOrder C] [Add C] [Zero C]
    (sp : SearchSpace S) (csp : CostSpace S C) (score : S → C) :
    (∀ m : UnguidedNoRouteHashable.Manager S,
      (UnguidedNoRouteHashable.ops sp).popState m = none ↔ m.fringe = []) ∧
    (∀ m : UnguidedNoRouteUnhashable.Manager S,
      (UnguidedNoRouteUnhashable.ops sp).popState m = none ↔ m.fringe = []) ∧
    (∀ m : UnguidedRouteHashable.Manager S,
      (UnguidedRouteHashable.ops sp).popState m = none ↔ m.fringe = []) ∧
    (∀ m : GuidedNoRouteHashable.Manager S C,
      (GuidedNoRouteHashable.ops sp score).popState m = none ↔ m.fringe = []) ∧
    (∀ m : AStarRouteHashable.Manager S C,
      (AStarRouteHashable.ops csp).popState m = none ↔ m.fringe = []) ∧
    (∀ m : AStarRouteUnhashable.Manager S C,
      (AStarRouteUnhashable.ops csp).popState m = none ↔ m.fringe = []) ∧
    (∀ m : AStarNoRouteUnhashable.Manager S C,
      (AStarNoRouteUnhashable.ops csp).popState m = none ↔ m.fringe = []) ∧
    (∀ (State Item Ctx NS Y M : Type) (ops : ManagerOps State Item Ctx NS Y M)
      (isSol : State → Bool) (fuel : Nat) (m m' : M),
      searcherNext ops isSol fuel m = .exhausted m' →
        ops.popState m' = none ∧
        ∀ k : Nat, searcherNext ops isSol (k + 1) m' = .exhausted m') := by
  have hdeque : ∀ (A : Type) (l : List A) (flag : Bool),
      (match flag with | true => popBack l | false => popFront l) = none ↔ l = [] := by
    intro A l flag
    cases flag
    · exact popFront_eq_none
    · exact popBack_eq_none
  refine ⟨?_, ?_, ?_, ?_, ?_, ?_, ?_, ?_⟩
  · intro m
    simp only [UnguidedNoRouteHashable.ops]
    rw [← hdeque S m.fringe m.depthFirst]
    rcases h : (match m.depthFirst with
      | true => popBack m.fringe
      | false => popFront m.fringe) with _ | ⟨a, rest⟩ <;> rw [h] <;> simp
  · intro m
    simp only [UnguidedNoRouteUnhashable.ops]
    rw [← hdeque S m.fringe m.depthFirst]
    rcases h : (match m.depthFirst with
      | true => popBack m.fringe
      | false => popFront m.fringe) with _ | ⟨a, rest⟩ <;> rw [h] <;> simp
  · intro m
    simp only [UnguidedRouteHashable.ops]
    rw [← hdeque (StateParent S) m.fringe m.depthFirst]
    rcases h : (match m.depthFirst with
      | true => popBack m.fringe
      | false => popFront m.fringe) with _ | ⟨a, rest⟩ <;> rw [h] <;> simp
  · intro m
    simp only [GuidedNoRouteHashable.ops, Option.map_eq_none']
    exact heapPop_eq_none
  · intro m
    simp only [AStarRouteHashable.ops, Option.map_eq_none']
    exact heapPop_eq_none
  · intro m
    simp only [AStarRouteUnhashable.ops, Option.map_eq_none']
    exact heapPop_eq_none
  · intro m
    simp only [AStarNoRouteUnhashable.ops, Option.map_eq_none']
    exact heapPop_eq_none
  · intro State Item Ctx NS Y M ops isSol fuel m m' h
    obtain ⟨_, hnone⟩ := searcherNext_exhausted_elim h
    exact ⟨hnone, fun k => searcherNext_of_pop_none hnone k⟩

/-- C8 witness: a concrete space with no successors and no solutions is
exhausted after one pull, and stays exhausted. -/
theorem c8_pop_none_iff_empty_and_exhaustion_permanent_witness :
    searcherNext (UnguidedNoRouteHashable.ops ⟨fun _ => [], fun _ => false⟩)
        (fun _ => false) 2 (UnguidedNoRouteHashable.initManager (0 : Nat)) =
      .exhausted { explored := [0], fringe := [], depthFirst := false } ∧
    (UnguidedNoRouteHashable.ops (⟨fun _ => [], fun _ => false⟩ : SearchSpace Nat)).popState
        { explored := [0], fringe := [], depthFirst := false } = none ∧
    searcherNext (UnguidedNoRouteHashable.ops ⟨fun _ => [], fun _ => false⟩)
        (fun _ => false) 1
        ({ explored := [0], fringe := [], depthFirst := false } :
          UnguidedNoRouteHashable.Manager Nat) =
      .exhausted { explored := [0], fringe := [], depthFirst := false } := by
  have hrun : searcherNext (UnguidedNoRouteHashable.ops ⟨fun _ => [], fun _ => false⟩)
      (fun _ => false) 2 (UnguidedNoRouteHashable.initManager (0 : Nat)) =
      .exhausted { explored := [0], fringe := [], depthFirst := false } := by decide
  have h := (c8_pop_none_iff_empty_and_exhaustion_permanent
    (⟨fun _ => [], fun _ => false⟩ : SearchSpace Nat)
    (⟨fun _ => [], fun _ => 0, fun _ => false⟩ : CostSpace Nat Nat)
    (fun _ => 0)).2.2.2.2.2.2.2 Nat (NoContext Nat) Unit Nat Nat
    (UnguidedNoRouteHashable.Manager Nat)
    (UnguidedNoRouteHashable.ops ⟨fun _ => [], fun _ => false⟩)
    (fun _ => false) 2 (UnguidedNoRouteHashable.initManager (0 : Nat))
    ({ explored := [0], fringe := [], depthFirst := false }) hrun
  exact ⟨hrun, h.1, by simpa using h.2 0⟩

namespace UnguidedNoRouteHashable

variable {S : Type} [DecidableEq S] (sp : SearchSpace S)

theorem validState_of_mem_unrh {m : Manager S} {it : NoContext S}
    (h : it.state ∈ m.explored) : (ops sp).validState m it = (false, m) := by
  simp [ops, h]

theorem validState_of_not_mem_unrh {m : Manager S} {it : NoContext S}
    (h : it.state ∉ m.explored) :
    (ops sp).validState m it = (true, { m with explored := it.state :: m.explored }) := by
  simp [ops, h]

theorem popState_explored {m m' : Manager S} {it : NoContext S}
    (h : (ops sp).popState m = some (it, m')) : m'.explored = m.explored := by
  simp only [ops] at h
  rcases hd : (match m.depthFirst with
    | true => popBack m.fringe
    | false => popFront m.fringe) with _ | ⟨a, rest⟩ <;> rw [hd] at h <;> simp at h
  rw [← h.2]

theorem mgrOp_explored_mono {m m' : Manager S} (h : MgrOp (ops sp) m m') :
    m.explored ⊆ m'.explored := by
  cases h with
  | pop hp =>
    rw [popState_explored sp hp]
    exact List.Subset.refl _
  | valid hv =>
    rename_i it b
    by_cases hmem : it.state ∈ m.explored
    · rw [validState_of_mem_unrh sp hmem] at hv
      cases hv
      exact List.Subset.refl _
    · rw [validState_of_not_mem_unrh sp hmem] at hv
      cases hv
      exact fun x hx => List.mem_cons_of_mem _ hx
  | place it => exact List.Subset.refl _
  | register it => exact List.Subset.refl _

theorem mgrOps_explored_mono {m m' : Manager S}
    (h : Relation.ReflTransGen (MgrOp (ops sp)) m m') : m.explored ⊆ m'.explored := by
  induction h with
  | refl => exact List.Subset.refl _
  | tail _ hstep ih => exact ih.trans (mgrOp_explored_mono sp hstep)

theorem expandStep_explored_unrh (ctx : Unit) (m : Manager S) (ns : S) :
    (expandStep (ops sp) ctx m ns).explored =
      if ns ∈ m.explored then m.explored else ns :: m.explored := by
  unfold expandStep
  simp only [ops]
  by_cases h : ns ∈ m.explored <;> simp [h]

theorem expandStep_explored_mono (ctx : Unit) (m : Manager S) (ns : S) :
    m.explored ⊆ (expandStep (ops sp) ctx m ns).explored := by
  rw [expandStep_explored_unrh]
  by_cases h : ns ∈ m.explored
  · simp [h]
  · simp only [h, if_false]
    exact fun x hx => List.mem_cons_of_mem _ hx

theorem expandFold_explored_mono_unrh (ctx : Unit) (l : List S) (m : Manager S) :
    m.explored ⊆ (expandFold (ops sp) ctx l m).explored := by
  induction l generalizing m with
  | nil => exact List.Subset.refl _
  | cons x t ih =>
    exact (expandStep_explored_mono sp ctx m x).trans (ih (expandStep (ops sp) ctx m x))

theorem expandFold_covers_unrh (ctx : Unit) (l : List S) (m : Manager S) :
    ∀ s ∈ l, s ∈ (expandFold (ops sp) ctx l m).explored := by
  induction l generalizing m with
  | nil => intro s hs; simp at hs
  | cons x t ih =>
    intro s hs
    rcases List.mem_cons.mp hs with rfl | hs
    · refine expandFold_explored_mono_unrh sp ctx t (expandStep (ops sp) ctx m s) ?_
      rw [expandStep_explored_unrh]
      by_cases h : s ∈ m.explored <;> simp [h]
    · exact ih (expandStep (ops sp) ctx m x) s hs

end UnguidedNoRouteHashable

namespace AStarRouteHashable

variable {S C : Type} [DecidableEq S] [LinearOrder C] [Add C] (sp : CostSpace S C)

theorem validState_of_mem_asrh {m : Manager S C} {it : StateParentCumulativeCost S C}
    (h : it.state ∈ m.explored) : (ops sp).validState m it = (false, m) := by
  simp [ops, h]

theorem validState_of_not_mem_asrh {m : Manager S C} {it : StateParentCumulativeCost S C}
    (h : it.state ∉ m.explored) :
    (ops sp).validState m it = (true, { m with explored := it.state :: m.explored }) := by
  simp [ops, h]

end AStarRouteHashable

namespace UnguidedRouteHashable

variable {S : Type} [DecidableEq S] (sp : SearchSpace S) (start : S)

theorem validState_of_mem' {m : Manager S} {it : StateParent S}
    (h : it.state ∈ m.explored) : (ops sp).validState m it = (false, m) := by
  simp [ops, h]

theorem validState_of_not_mem' {m : Manager S} {it : StateParent S}
    (h : it.state ∉ m.explored) :
    (ops sp).validState m it = (true, { m with explored := it.state :: m.explored }) := by
  simp [ops, h]

theorem popState_elim_urh {m m' : Manager S} {it : StateParent S}
    (h : (ops sp).popState m = some (it, m')) :
    it ∈ m.fringe ∧ m'.parents = m.parents ∧ m'.explored = m.explored ∧
      m'.depthFirst = m.depthFirst ∧ ∀ x ∈ m'.fringe, x ∈ m.fringe := by
  simp only [ops] at h
  rcases hd : (match m.depthFirst with
    | true => popBack m.fringe
    | false => popFront m.fringe) with _ | ⟨a, rest⟩ <;> rw [hd] at h <;> simp at h
  obtain ⟨rfl, rfl⟩ := h
  have hmem : a ∈ m.fringe ∧ ∀ x ∈ rest, x ∈ m.fringe := by
    rcases hdf : m.depthFirst <;> rw [hdf] at hd
    · rw [popFront_eq_some] at hd
      rw [hd]
      exact ⟨List.mem_cons_self _ _, fun x hx => List.mem_cons_of_mem _ hx⟩
    · have := popBack_eq_some hd
      rw [this]
      constructor
      · simp
      · intro x hx
        simp [hx]
  exact ⟨hmem.1, rfl, rfl, rfl, hmem.2⟩

theorem registerCurrentState_eq_urh (m : Manager S) (it : StateParent S) :
    (ops sp).registerCurrentState m it =
      (m.parents.length, { m with parents := m.parents ++ [it] }) := rfl

theorem expandStep_parents_urh (ctx : Nat) (m : Manager S) (ns : S) :
    (expandStep (ops sp) ctx m ns).parents = m.parents := by
  unfold expandStep
  simp only [ops]
  by_cases h : ns ∈ m.explored <;> simp [h, pushBack]

theorem expandFold_parents_urh (ctx : Nat) (l : List S) (m : Manager S) :
    (expandFold (ops sp) ctx l m).parents = m.parents := by
  induction l generalizing m with
  | nil => rfl
  | cons x t ih =>
    exact (ih (expandStep (ops sp) ctx m x)).trans (expandStep_parents_urh sp ctx m x)

theorem expandStep_fringe_urh (ctx : Nat) (m : Manager S) (ns : S) :
    (expandStep (ops sp) ctx m ns).fringe =
      if ns ∈ m.explored then m.fringe
      else m.fringe ++ [{ state := ns, parent := some ctx }] := by
  unfold expandStep
  simp only [ops]
  by_cases h : ns ∈ m.explored <;> simp [h, pushBack]

theorem expandStep_fringe_mem (ctx : Nat) (m : Manager S) (ns : S) :
    ∀ x ∈ (expandStep (ops sp) ctx m ns).fringe,
      x ∈ m.fringe ∨ x = { state := ns, parent := some ctx } := by
  intro x hx
  rw [expandStep_fringe_urh] at hx
  by_cases h : ns ∈ m.explored
  · rw [if_pos h] at hx
    exact Or.inl hx
  · rw [if_neg h] at hx
    rcases List.mem_append.mp hx with hx' | hx'
    · exact Or.inl hx'
    · simp at hx'
      exact Or.inr hx'

theorem expandFold_fringe_mem_urh (ctx : Nat) (l : List S) (m : Manager S) :
    ∀ x ∈ (expandFold (ops sp) ctx l m).fringe,
      x ∈ m.fringe ∨ ∃ t ∈ l, x = { state := t, parent := some ctx } := by
  induction l generalizing m with
  | nil => exact fun x hx => Or.inl hx
  | cons a t ih =>
    intro x hx
    rcases ih (expandStep (ops sp) ctx m a) x hx with hx' | ⟨u, hu, rfl⟩
    · rcases expandStep_fringe_mem sp ctx m a x hx' with hx'' | rfl
      · exact Or.inl hx''
      · exact Or.inr ⟨a, List.mem_cons_self _ _, rfl⟩
    · exact Or.inr ⟨u, List.mem_cons_of_mem _ hu, rfl⟩

/-- Run invariant of the route-yielding unguided manager: the arena is
well-formed and every arena entry and frontier item reconstructs to a
genuine path from the start to its own state. -/
def RInv (m : Manager S) : Prop :=
  ArenaWF m.parents ∧
  (∀ e ∈ m.parents, GoodItem sp.nextStates start m.parents e) ∧
  (∀ it ∈ m.fringe, GoodItem sp.nextStates start m.parents it)

theorem rinv_init (flag : Bool) :
    RInv sp start { initManager start with depthFirst := flag } := by
  refine ⟨?_, ?_, ?_⟩
  · intro i e hg pi hp
    rcases i with _ | i
    · simp [initManager] at hg
      rw [← hg] at hp
      cases hp
    · simp [initManager] at hg
  · intro e he
    simp [initManager] at he
    subst he
    refine ⟨fun pi hp => ?_, ⟨[start], rfl, rfl, rfl, by simp⟩⟩
    cases hp
  · intro it hit
    simp [initManager] at hit
    subst hit
    refine ⟨fun pi hp => ?_, ⟨[start], rfl, rfl, rfl, by simp⟩⟩
    cases hp

theorem rinv_step {m m' : Manager S}
    (h : IterStep (ops sp) sp.isSolution m m') (hi : RInv sp start m) :
    RInv sp start m' := by
  obtain ⟨wf, hent, hfr⟩ := hi
  cases h with
  | mk hpop hsol =>
    rename_i cur m1
    obtain ⟨hcurmem, hpar1, _, _, hfr1⟩ := popState_elim_urh sp hpop
    have hcurgood : GoodItem sp.nextStates start m.parents cur := hfr cur hcurmem
    rw [registerCurrentState_eq_urh]
    set P := m.parents with hP
    have hpar1' : m1.parents = P := hpar1
    set m2 : Manager S := { m1 with parents := m1.parents ++ [cur] } with hm2
    have hm2par : m2.parents = P ++ [cur] := by rw [hm2, hpar1']
    have hwfcur : ItemWF P cur := hcurgood.1
    have wf2 : ArenaWF m2.parents := by
      rw [hm2par]
      exact ArenaWF.push wf hwfcur
    have hgood2 : ∀ e ∈ m2.parents, GoodItem sp.nextStates start m2.parents e := by
      intro e he
      rw [hm2par] at he ⊢
      rcases List.mem_append.mp he with he' | he'
      · exact GoodItem.append wf (hent e he') [cur]
      · simp at he'
        rw [he']
        exact GoodItem.append wf hcurgood [cur]
    have hgoodfr2 : ∀ it ∈ m2.fringe, GoodItem sp.nextStates start m2.parents it := by
      intro it hit
      have : it ∈ m1.fringe := hit
      rw [hm2par]
      exact GoodItem.append wf (hfr it (hfr1 it this)) [cur]
    refine ⟨?_, ?_, ?_⟩
    · rw [expandFold_parents_urh]
      exact wf2
    · rw [expandFold_parents_urh]
      exact hgood2
    · intro it hit
      rw [expandFold_parents_urh]
      rcases expandFold_fringe_mem_urh sp _ _ m2 it hit with hold | ⟨t, ht, rfl⟩
      · exact hgoodfr2 it hold
      · obtain ⟨hwfc, p, hpp, hh, hl, hc⟩ := hcurgood
        have hctx : m1.parents.length = P.length := by rw [hpar1']
        rw [hctx]
        refine ⟨?_, p ++ [t], ?_, ?_, ?_, ?_⟩
        · intro pi hpi
          cases hpi
          rw [hm2par]
          simp
        · rw [hm2par]
          exact route_extend wf hwfc hpp t
        · rcases p with _ | ⟨a, q⟩
          · cases hh
          · simpa using hh
        · simp
        · rw [List.chain'_append]
          refine ⟨hc, List.chain'_singleton _, ?_⟩
          intro x hx y hy
          rw [hl] at hx
          cases hx
          simp at hy
          subst hy
          simpa using ht

theorem rinv_reach {m m' : Manager S}
    (h : DriverReach (ops sp) sp.isSolution m m') (base : RInv sp start m) :
    RInv sp start m' :=
  DriverReach.preserve (fun _ _ hs hi => rinv_step sp start hs hi) h base

/-! Breadth-first (flag off) machinery for the shortest-route theorem. -/

theorem popState_front {m m' : Manager S} {it : StateParent S}
    (hflag : m.depthFirst = false)
    (h : (ops sp).popState m = some (it, m')) :
    m.fringe = it :: m'.fringe ∧ m'.parents = m.parents ∧
      m'.explored = m.explored ∧ m'.depthFirst = false := by
  simp only [ops, hflag] at h
  rcases hd : popFront m.fringe with _ | ⟨a, rest⟩ <;> rw [hd] at h <;> simp at h
  obtain ⟨rfl, rfl⟩ := h
  rw [popFront_eq_some] at hd
  exact ⟨hd, rfl, rfl, rfl⟩

theorem expandStep_explored_urh (ctx : Nat) (m : Manager S) (ns : S) :
    (expandStep (ops sp) ctx m ns).explored =
      if ns ∈ m.explored then m.explored else ns :: m.explored := by
  unfold expandStep
  simp only [ops]
  by_cases h : ns ∈ m.explored <;> simp [h]

theorem expandStep_depthFirst (ctx : Nat) (m : Manager S) (ns : S) :
    (expandStep (ops sp) ctx m ns).depthFirst = m.depthFirst := by
  unfold expandStep
  simp only [ops]
  by_cases h : ns ∈ m.explored <;> simp [h, pushBack]

theorem expandFold_depthFirst (ctx : Nat) (l : List S) (m : Manager S) :
    (expandFold (ops sp) ctx l m).depthFirst = m.depthFirst := by
  induction l generalizing m with
  | nil => rfl
  | cons x t ih =>
    exact (ih (expandStep (ops sp) ctx m x)).trans (expandStep_depthFirst sp ctx m x)

theorem expandFold_explored_mono_urh (ctx : Nat) (l : List S) (m : Manager S) :
    ∀ s ∈ m.explored, s ∈ (expandFold (ops sp) ctx l m).explored := by
  induction l generalizing m with
  | nil => exact fun s hs => hs
  | cons x t ih =>
    intro s hs
    refine ih (expandStep (ops sp) ctx m x) s ?_
    rw [expandStep_explored_urh]
    by_cases h : x ∈ m.explored
    · rw [if_pos h]
      exact hs
    · rw [if_neg h]
      exact List.mem_cons_of_mem _ hs

theorem expandFold_covers_urh (ctx : Nat) (l : List S) (m : Manager S) :
    ∀ t ∈ l, t ∈ (expandFold (ops sp) ctx l m).explored := by
  induction l generalizing m with
  | nil => intro t ht; cases ht
  | cons x r ih =>
    intro t ht
    rcases List.mem_cons.mp ht with rfl | ht
    · refine expandFold_explored_mono_urh sp ctx r (expandStep (ops sp) ctx m t) t ?_
      rw [expandStep_explored_urh]
      by_cases h : t ∈ m.explored
      · rw [if_pos h]
        exact h
      · rw [if_neg h]
        exact List.mem_cons_self _ _
    · exact ih (expandStep (ops sp) ctx m x) t ht

theorem expandFold_fringe_mono_urh (ctx : Nat) (l : List S) (m : Manager S) :
    ∀ x ∈ m.fringe, x ∈ (expandFold (ops sp) ctx l m).fringe := by
  induction l generalizing m with
  | nil => exact fun x hx => hx
  | cons a t ih =>
    intro x hx
    refine ih (expandStep (ops sp) ctx m a) x ?_
    rw [expandStep_fringe_urh]
    by_cases h : a ∈ m.explored
    · rw [if_pos h]
      exact hx
    · rw [if_neg h]
      exact List.mem_append_left _ hx

theorem expandFold_explored_decomp (ctx : Nat) (l : List S) (m : Manager S) :
    ∀ s ∈ (expandFold (ops sp) ctx l m).explored,
      s ∈ m.explored ∨ ∃ it ∈ (expandFold (ops sp) ctx l m).fringe, it.state = s := by
  induction l generalizing m with
  | nil => exact fun s hs => Or.inl hs
  | cons x t ih =>
    intro s hs
    rcases ih (expandStep (ops sp) ctx m x) s hs with hs' | hs'
    · rw [expandStep_explored_urh] at hs'
      by_cases h : x ∈ m.explored
      · rw [if_pos h] at hs'
        exact Or.inl hs'
      · rw [if_neg h] at hs'
        rcases List.mem_cons.mp hs' with rfl | hs''
        · refine Or.inr ⟨{ state := s, parent := some ctx }, ?_, rfl⟩
          refine expandFold_fringe_mono_urh sp ctx t (expandStep (ops sp) ctx m s) _ ?_
          rw [expandStep_fringe_urh, if_neg h]
          exact List.mem_append_right _ (List.mem_cons_self _ _)
        · exact Or.inl hs''
    · exact Or.inr hs'

theorem expandFold_fringe_shape (ctx : Nat) (l : List S) (m : Manager S) :
    ∃ news, (expandFold (ops sp) ctx l m).fringe = m.fringe ++ news ∧
      ∀ x ∈ news, ∃ t ∈ l, x = { state := t, parent := some ctx } ∧
        t ∉ m.explored := by
  induction l generalizing m with
  | nil => exact ⟨[], by simp [expandFold], fun x hx => by cases hx⟩
  | cons a t ih =>
    obtain ⟨news, hshape, hmem⟩ := ih (expandStep (ops sp) ctx m a)
    have hcons : expandFold (ops sp) ctx (a :: t) m =
        expandFold (ops sp) ctx t (expandStep (ops sp) ctx m a) := rfl
    by_cases h : a ∈ m.explored
    · refine ⟨news, ?_, ?_⟩
      · rw [hcons, hshape, expandStep_fringe_urh, if_pos h]
      · intro x hx
        obtain ⟨u, hu, hxu, hfresh⟩ := hmem x hx
        rw [expandStep_explored_urh, if_pos h] at hfresh
        exact ⟨u, List.mem_cons_of_mem _ hu, hxu, hfresh⟩
    · refine ⟨{ state := a, parent := some ctx } :: news, ?_, ?_⟩
      · rw [hcons, hshape, expandStep_fringe_urh, if_neg h]
        simp
      · intro x hx
        rcases List.mem_cons.mp hx with rfl | hx
        · exact ⟨a, List.mem_cons_self _ _, rfl, h⟩
        · obtain ⟨u, hu, hxu, hfresh⟩ := hmem x hx
          rw [expandStep_explored_urh, if_neg h] at hfresh
          exact ⟨u, List.mem_cons_of_mem _ hu, hxu, fun hc =>
            hfresh (List.mem_cons_of_mem _ hc)⟩

/-- Depth-annotated good frontier item: its reconstructed route is a
start-to-state path of exactly `d` steps, and no walk of the search space
reaches its state in fewer than `d` steps. -/
def ItemD (parents : List (StateParent S)) (it : StateParent S) (d : Nat) : Prop :=
  ItemWF parents it ∧
  (∃ p, prepareResultFromStateParentMap parents it = some p ∧
    p.head? = some start ∧ p.getLast? = some it.state ∧
    List.Chain' (fun a b => b ∈ sp.nextStates a) p ∧ p.length = d + 1) ∧
  (∀ q, Steps sp start q → stepsEnd start q = it.state → d ≤ q.length)

theorem itemD_append {parents : List (StateParent S)} {it : StateParent S} {d : Nat}
    (wf : ArenaWF parents) (h : ItemD sp start parents it d)
    (ext : List (StateParent S)) : ItemD sp start (parents ++ ext) it d := by
  obtain ⟨hwf, ⟨p, hp, hh, hl, hc, hlen⟩, hmin⟩ := h
  refine ⟨fun pi hpi => ?_, ⟨p, ?_, hh, hl, hc, hlen⟩, hmin⟩
  · have := hwf pi hpi
    simp only [List.length_append]
    omega
  · rw [prepareResult_append wf hwf]
    exact hp

/-- Every explored state is either still on the frontier or has been fully
expanded: it is not a solution and all its successors are explored. -/
def Expanded (m : Manager S) : Prop :=
  ∀ s ∈ m.explored, (∃ it ∈ m.fringe, it.state = s) ∨
    (sp.isSolution s = false ∧ ∀ t ∈ sp.nextStates s, t ∈ m.explored)

/-- The two-block frontier structure of breadth-first exploration: a first
block of depth-`d` items followed by a block of depth-`d + 1` items, with
every walk of fewer than `d` steps already explored. -/
def Blocks (m : Manager S) (d : Nat) (A B : List (StateParent S)) : Prop :=
  m.fringe = A ++ B ∧
  (∀ it ∈ A, ItemD sp start m.parents it d) ∧
  (∀ it ∈ B, ItemD sp start m.parents it (d + 1)) ∧
  (∀ q, Steps sp start q → q.length < d → stepsEnd start q ∈ m.explored)

/-- If every frontier item needs at least `d` steps to reach and every walk
of fewer than `d` steps ends explored, then every walk of at most `d` steps
ends explored. -/
theorem le_explored {m : Manager S} {d : Nat}
    (hstart : start ∈ m.explored) (hexp : Expanded sp m)
    (hmin : ∀ it ∈ m.fringe, ∀ q, Steps sp start q →
      stepsEnd start q = it.state → d ≤ q.length)
    (hrex : ∀ q, Steps sp start q → q.length < d → stepsEnd start q ∈ m.explored) :
    ∀ q, Steps sp start q → q.length ≤ d → stepsEnd start q ∈ m.explored := by
  intro q hq hlen
  rcases Nat.lt_or_ge q.length d with hlt | hge
  · exact hrex q hq hlt
  rcases List.eq_nil_or_concat q with rfl | ⟨q', z, hqc⟩
  · exact hstart
  · rw [List.concat_eq_append] at hqc
    subst hqc
    obtain ⟨hq', hz⟩ := steps_append_elim hq
    have hq'len : q'.length < d := by
      simp only [List.length_append, List.length_singleton] at hlen hge
      omega
    have hs' : stepsEnd start q' ∈ m.explored := hrex q' hq' hq'len
    rcases hexp _ hs' with ⟨it, hit, hits⟩ | ⟨_, hsucc⟩
    · have := hmin it hit q' hq' hits.symm
      omega
    · rw [stepsEnd_append_single]
      exact hsucc z hz

/-- Normalising a block decomposition so that the frontier head sits in the
first (lower-depth) block; when the low block is empty the whole structure
shifts one level down. -/
theorem blocks_head {m : Manager S} {d : Nat} {A B : List (StateParent S)}
    {cur : StateParent S} {rest : List (StateParent S)}
    (hstart : start ∈ m.explored) (hexp : Expanded sp m)
    (hb : Blocks sp start m d A B) (hfr : m.fringe = cur :: rest) :
    ∃ D A' B', Blocks sp start m D (cur :: A') B' ∧ rest = A' ++ B' := by
  obtain ⟨hsplit, hA, hB, hrex⟩ := hb
  rcases A with _ | ⟨a, A'⟩
  · simp only [List.nil_append] at hsplit
    rcases B with _ | ⟨b, B'⟩
    · rw [hsplit] at hfr
      cases hfr
    · rw [hsplit] at hfr
      have hbc : b = cur := (List.cons_eq_cons.mp hfr).1
      have hBr : B' = rest := (List.cons_eq_cons.mp hfr).2
      subst hbc
      subst hBr
      refine ⟨d + 1, B', [], ⟨?_, hB, ?_, ?_⟩, by simp⟩
      · rw [hsplit]
        simp
      · intro it hit
        cases hit
      · intro q hq hlen
        refine le_explored sp start hstart hexp ?_ hrex q hq (Nat.lt_succ_iff.mp hlen)
        intro it hit q' hq' hq'end
        rw [hsplit] at hit
        exact Nat.le_of_succ_le ((hB it hit).2.2 q' hq' hq'end)
  · rw [List.cons_append] at hsplit
    have heq : a = cur ∧ A' ++ B = rest := by
      rw [hsplit] at hfr
      refine ⟨?_, ?_⟩
      · exact (List.cons_eq_cons.mp hfr).1
      · exact (List.cons_eq_cons.mp hfr).2
    obtain ⟨rfl, rfl⟩ := heq
    exact ⟨d, A', B, ⟨hsplit, hA, hB, hrex⟩, rfl⟩

/-- Run invariant of the breadth-first (flag-off) route manager. -/
def BInv (m : Manager S) : Prop :=
  m.depthFirst = false ∧ ArenaWF m.parents ∧ start ∈ m.explored ∧
  Expanded sp m ∧ ∃ d A B, Blocks sp start m d A B

theorem binv_init : BInv sp start (initManager start) := by
  refine ⟨rfl, ?_, by simp [initManager], ?_,
    0, [{ state := start, parent := none }], [], rfl, ?_, ?_, ?_⟩
  · intro i e hg pi hp
    rcases i with _ | i
    · simp [initManager] at hg
      rw [← hg] at hp
      cases hp
    · simp [initManager] at hg
  · intro s hs
    simp [initManager] at hs
    subst hs
    exact Or.inl ⟨{ state := s, parent := none }, by simp [initManager], rfl⟩
  · intro it hit
    simp at hit
    subst hit
    refine ⟨fun pi hp => ?_, ⟨[start], rfl, rfl, rfl, by simp, rfl⟩,
      fun q _ _ => Nat.zero_le _⟩
    cases hp
  · intro it hit
    cases hit
  · intro q hq hlen
    exact absurd hlen (Nat.not_lt_zero _)

theorem binv_step {m m' : Manager S}
    (h : IterStep (ops sp) sp.isSolution m m') (hi : BInv sp start m) :
    BInv sp start m' := by
  obtain ⟨hflag, wf, hstart, hexp, d0, A0, B0, hblocks⟩ := hi
  cases h with
  | mk hpop hsol =>
    rename_i cur m1
    obtain ⟨hfr, hpar1, hexpl1, hflag1⟩ := popState_front sp hflag hpop
    obtain ⟨D, A', B', ⟨hsplit, hA, hB, hrex⟩, hrest⟩ :=
      blocks_head sp start hstart hexp hblocks hfr
    have hcurD := hA cur (List.mem_cons_self _ _)
    obtain ⟨hwfc, ⟨p, hp, hh, hl, hc, hplen⟩, hmincur⟩ := hcurD
    have hminAll : ∀ it ∈ m.fringe, ∀ q, Steps sp start q →
        stepsEnd start q = it.state → D ≤ q.length := by
      intro it hit q hq hqend
      rw [hsplit] at hit
      rcases List.mem_append.mp hit with h1 | h1
      · exact (hA it h1).2.2 q hq hqend
      · exact Nat.le_of_succ_le ((hB it h1).2.2 q hq hqend)
    rw [registerCurrentState_eq_urh]
    set P := m.parents with hP
    have hpar1' : m1.parents = P := hpar1
    set m2 : Manager S := { m1 with parents := m1.parents ++ [cur] } with hm2
    have hm2par : m2.parents = P ++ [cur] := by rw [hm2, hpar1']
    have hm2expl : m2.explored = m.explored := hexpl1
    have hm2fr : m2.fringe = A' ++ B' := hrest
    have hctx : m1.parents.length = P.length := by rw [hpar1']
    set l := (ops sp).nextStatesIter ((ops sp).itemState cur) with hld
    have hlsucc : l = sp.nextStates cur.state := rfl
    obtain ⟨news, hshape, hnews⟩ := expandFold_fringe_shape sp m1.parents.length l m2
    have wf2 : ArenaWF (P ++ [cur]) := ArenaWF.push wf hwfc
    refine ⟨?_, ?_, ?_, ?_, D, A', B' ++ news, ?_, ?_, ?_, ?_⟩
    · rw [expandFold_depthFirst]
      exact hflag1
    · rw [expandFold_parents_urh, hm2par]
      exact wf2
    · refine expandFold_explored_mono_urh sp _ l m2 start ?_
      rw [hm2expl]
      exact hstart
    · intro s hs
      rcases expandFold_explored_decomp sp _ l m2 s hs with hs' | hs'
      · rw [hm2expl] at hs'
        rcases hexp s hs' with ⟨it, hit, hits⟩ | ⟨hnsol, hsucc⟩
        · rw [hfr] at hit
          rcases List.mem_cons.mp hit with rfl | hit'
          · refine Or.inr ⟨?_, ?_⟩
            · rw [← hits]
              exact hsol
            · intro t ht
              refine expandFold_covers_urh sp _ l m2 t ?_
              rw [hlsucc, hits]
              exact ht
          · exact Or.inl ⟨it, expandFold_fringe_mono_urh sp _ l m2 it hit', hits⟩
        · refine Or.inr ⟨hnsol, fun t ht => ?_⟩
          refine expandFold_explored_mono_urh sp _ l m2 t ?_
          rw [hm2expl]
          exact hsucc t ht
      · exact Or.inl hs'
    · rw [hshape, hm2fr, List.append_assoc]
    · intro it hit
      rw [expandFold_parents_urh, hm2par]
      exact itemD_append sp start wf (hA it (List.mem_cons_of_mem _ hit)) [cur]
    · intro it hit
      rw [expandFold_parents_urh, hm2par]
      rcases List.mem_append.mp hit with hit' | hit'
      · exact itemD_append sp start wf (hB it hit') [cur]
      · obtain ⟨t, ht, rfl, hfresh⟩ := hnews it hit'
        rw [hm2expl] at hfresh
        rw [hctx]
        refine ⟨?_, ⟨p ++ [t], ?_, ?_, ?_, ?_, ?_⟩, ?_⟩
        · intro pi hpi
          cases hpi
          simp
        · exact route_extend wf hwfc hp t
        · rcases p with _ | ⟨a, q⟩
          · cases hh
          · simpa using hh
        · simp
        · rw [List.chain'_append]
          refine ⟨hc, List.chain'_singleton _, ?_⟩
          intro x hx y hy
          rw [hl] at hx
          cases hx
          simp at hy
          subst hy
          rw [← hlsucc]
          exact ht
        · simp [hplen]
        · intro q hq hqend
          by_contra hlt
          push_neg at hlt
          have hle : q.length ≤ D := Nat.lt_succ_iff.mp hlt
          have := le_explored sp start hstart hexp hminAll hrex q hq hle
          rw [hqend] at this
          exact hfresh this
    · intro q hq hlen
      refine expandFold_explored_mono_urh sp _ l m2 _ ?_
      rw [hm2expl]
      exact hrex q hq hlen

theorem binv_reach {m m' : Manager S}
    (h : DriverReach (ops sp) sp.isSolution m m') (base : BInv sp start m) :
    BInv sp start m' :=
  DriverReach.preserve (fun _ _ hs hi => binv_step sp start hs hi) h base

end UnguidedRouteHashable

namespace AStarRouteHashable

variable {S C : Type} [DecidableEq S] [LinearOrder C] [AddCommMonoid C]
variable (sp : CostSpace S C) (start : S)

/-- The heap entry `place_state` builds for a successor `ns` under context
`ctx`: cumulative cost `ctx.2 + edge cost`, priority `score + cumulative`. -/
def mkEntry (ctx : Nat × C) (ns : S × C) :
    OrderedSearchable (StateParentCumulativeCost S C) C :=
  { state := { state := ns.1, parent := some ctx.1, cumulativeCost := ctx.2 + ns.2 }
    score := sp.score ns.1 + (ctx.2 + ns.2) }

theorem popState_elim_asrh {m m' : Manager S C} {it : StateParentCumulativeCost S C}
    (h : (ops sp).popState m = some (it, m')) :
    ∃ entry, heapPop osCmp m.fringe = some (entry, m'.fringe) ∧
      entry.state = it ∧ entry ∈ m.fringe ∧ m'.parents = m.parents ∧
      m'.explored = m.explored ∧ ∀ x ∈ m'.fringe, x ∈ m.fringe := by
  simp only [ops] at h
  rcases hq : heapPop osCmp m.fringe with _ | ⟨entry, rest⟩ <;> rw [hq] at h <;> simp at h
  obtain ⟨rfl, rfl⟩ := h
  have hperm := heapPop_perm hq
  refine ⟨entry, rfl, rfl, hperm.symm.subset (List.mem_cons_self _ _), rfl, rfl, ?_⟩
  intro x hx
  exact hperm.symm.subset (List.mem_cons_of_mem _ hx)

theorem registerCurrentState_eq_asrh (m : Manager S C) (it : StateParentCumulativeCost S C) :
    (ops sp).registerCurrentState m it =
      ((m.parents.length, it.cumulativeCost),
        { m with parents := m.parents ++ [it.toStateParent] }) := rfl

theorem expandStep_parents_asrh (ctx : Nat × C) (m : Manager S C) (ns : S × C) :
    (expandStep (ops sp) ctx m ns).parents = m.parents := by
  unfold expandStep
  simp only [ops]
  by_cases h : ns.1 ∈ m.explored <;> simp [h, heapPush]

theorem expandFold_parents_asrh (ctx : Nat × C) (l : List (S × C)) (m : Manager S C) :
    (expandFold (ops sp) ctx l m).parents = m.parents := by
  induction l generalizing m with
  | nil => rfl
  | cons x t ih =>
    exact (ih (expandStep (ops sp) ctx m x)).trans (expandStep_parents_asrh sp ctx m x)

theorem expandStep_fringe_asrh (ctx : Nat × C) (m : Manager S C) (ns : S × C) :
    (expandStep (ops sp) ctx m ns).fringe =
      if ns.1 ∈ m.explored then m.fringe else mkEntry sp ctx ns :: m.fringe := by
  unfold expandStep
  simp only [ops]
  by_cases h : ns.1 ∈ m.explored <;> simp [h, heapPush, mkEntry]

theorem expandFold_fringe_mem_asrh (ctx : Nat × C) (l : List (S × C)) (m : Manager S C) :
    ∀ x ∈ (expandFold (ops sp) ctx l m).fringe,
      x ∈ m.fringe ∨ ∃ ns ∈ l, x = mkEntry sp ctx ns := by
  induction l generalizing m with
  | nil => exact fun x hx => Or.inl hx
  | cons a t ih =>
    intro x hx
    rcases ih (expandStep (ops sp) ctx m a) x hx with hx' | ⟨u, hu, rfl⟩
    · rw [expandStep_fringe_asrh] at hx'
      by_cases h : a.1 ∈ m.explored
      · rw [if_pos h] at hx'
        exact Or.inl hx'
      · rw [if_neg h] at hx'
        rcases List.mem_cons.mp hx' with rfl | hx''
        · exact Or.inr ⟨a, List.mem_cons_self _ _, rfl⟩
        · exact Or.inl hx''
    · exact Or.inr ⟨u, List.mem_cons_of_mem _ hu, rfl⟩

/-- A good A* heap entry: in-range parent pointer, priority equal to
`score(state) + cumulative_cost`, and a cost-annotated path from the start
whose states form the entry's reconstructed route and whose total cost is
the entry's cumulative cost. -/
def GoodEntry (parents : List (StateParent S))
    (entry : OrderedSearchable (StateParentCumulativeCost S C) C) : Prop :=
  ItemWF parents entry.state.toStateParent ∧
  entry.score = sp.score entry.state.state + entry.state.cumulativeCost ∧
  ∃ steps, CSteps sp start steps ∧
    prepareResultFromStateParentMap parents entry.state.toStateParent =
      some (start :: steps.map Prod.fst) ∧
    entry.state.cumulativeCost = pathCost steps

/-- Run invariant of the A* route-yielding hashable manager. -/
def AInv (m : Manager S C) : Prop :=
  ArenaWF m.parents ∧ ∀ entry ∈ m.fringe, GoodEntry sp start m.parents entry

theorem ainv_init : AInv sp start (initManager sp start) := by
  constructor
  · intro i e hg pi hp
    rcases i with _ | i
    · simp [initManager] at hg
      rw [← hg] at hp
      cases hp
    · simp [initManager] at hg
  · intro entry hentry
    simp [initManager] at hentry
    subst hentry
    refine ⟨fun pi hp => ?_, (add_zero _).symm, ⟨[], trivial, rfl, rfl⟩⟩
    cases hp

theorem ainv_step {m m' : Manager S C}
    (h : IterStep (ops sp) sp.isSolution m m') (hi : AInv sp start m) :
    AInv sp start m' := by
  obtain ⟨wf, hfr⟩ := hi
  cases h with
  | mk hpop hsol =>
    rename_i cur m1
    obtain ⟨entry, hq, hentst, hentmem, hpar1, _, hfr1⟩ := popState_elim_asrh sp hpop
    subst hentst
    have hgood : GoodEntry sp start m.parents entry := hfr entry hentmem
    obtain ⟨hwfc, hsc, steps, hcs, hroute, hcost⟩ := hgood
    rw [registerCurrentState_eq_asrh]
    set P := m.parents with hP
    have hpar1' : m1.parents = P := hpar1
    have hm2par : ({ m1 with
        parents := m1.parents ++ [entry.state.toStateParent] } :
        Manager S C).parents = P ++ [entry.state.toStateParent] := by
      simp [hpar1']
    have hwfc' : ItemWF P entry.state.toStateParent := hwfc
    have wf2 : ArenaWF (P ++ [entry.state.toStateParent]) := ArenaWF.push wf hwfc'
    constructor
    · rw [expandFold_parents_asrh, hm2par]
      exact wf2
    · intro x hx
      rw [expandFold_parents_asrh, hm2par]
      rcases expandFold_fringe_mem_asrh sp _ _ _ x hx with hold | ⟨ns, hns, rfl⟩
      · have hold' : x ∈ m1.fringe := hold
        obtain ⟨hwfx, hscx, stepsx, hcsx, hroutex, hcostx⟩ :=
          hfr x (hfr1 x hold')
        refine ⟨?_, hscx, stepsx, hcsx, ?_, hcostx⟩
        · intro pi hpi
          have := hwfx pi hpi
          simp only [List.length_append]
          omega
        · rw [prepareResult_append wf hwfx]
          exact hroutex
      · rcases ns with ⟨t, c⟩
        dsimp only
        have hend : pathEnd start steps = entry.state.state := by
          have h1 := pathEnd_getLast start steps
          have h2 := (prepareResult_getLast hroute).2
          rw [h1] at h2
          exact Option.some_injective _ h2
        have hedge : (t, c) ∈ sp.nextStatesWithCosts entry.state.state := hns
        have hctx1 : m1.parents.length = P.length := by rw [hpar1']
        have harg : (mkEntry sp (m1.parents.length, entry.state.cumulativeCost)
            (t, c)).state.toStateParent =
            ({ state := t, parent := some P.length } : StateParent S) := by
          simp [mkEntry, StateParentCumulativeCost.toStateParent, hctx1]
        refine ⟨?_, rfl, ⟨steps ++ [(t, c)], ?_, ?_, ?_⟩⟩
        · intro pi hpi
          rw [harg] at hpi
          cases hpi
          simp
        · refine csteps_append_single hcs ?_
          rw [hend]
          exact hedge
        · have hroute' := route_extend wf hwfc' hroute t
          rw [harg, hroute']
          simp
        · simp only [mkEntry]
          rw [hcost]
          simp [pathCost]

theorem ainv_reach {m m' : Manager S C}
    (h : DriverReach (ops sp) sp.isSolution m m') (base : AInv sp start m) :
    AInv sp start m' :=
  DriverReach.preserve (fun _ _ hs hi => ainv_step sp start hs hi) h base

end AStarRouteHashable

namespace UnguidedNoRouteHashable

variable {S : Type} [DecidableEq S] (sp : SearchSpace S)

theorem popState_none_iff (m : Manager S) :
    (ops sp).popState m = none ↔ m.fringe = [] := by
  simp only [ops]
  rcases h : (match m.depthFirst with
    | true => popBack m.fringe
    | false => popFront m.fringe) with _ | ⟨a, rest⟩ <;> rw [h] <;> simp
  · cases hdf : m.depthFirst <;> rw [hdf] at h
    · exact popFront_eq_none.mp h
    · exact popBack_eq_none.mp h
  · intro he
    rw [he] at h
    cases hdf : m.depthFirst <;> rw [hdf] at h <;> simp [popFront, popBack] at h

theorem popState_elim_unrh {m m' : Manager S} {it : NoContext S}
    (h : (ops sp).popState m = some (it, m')) :
    (m.fringe : Multiset S) = it.state ::ₘ (m'.fringe : Multiset S) ∧
      m'.explored = m.explored ∧ m'.depthFirst = m.depthFirst := by
  simp only [ops] at h
  rcases hd : (match m.depthFirst with
    | true => popBack m.fringe
    | false => popFront m.fringe) with _ | ⟨a, rest⟩ <;> rw [hd] at h <;> simp at h
  obtain ⟨rfl, rfl⟩ := h
  refine ⟨?_, rfl, rfl⟩
  rcases hdf : m.depthFirst <;> rw [hdf] at hd
  · rw [popFront_eq_some] at hd
    rw [hd]
    rfl
  · rw [popBack_eq_some hd]
    exact Multiset.coe_eq_coe.mpr (List.perm_append_singleton _ _)

/-- The `DedupFrame` of the unguided / no-route / hashable manager (covers
both the breadth-first and the depth-first flag settings). -/
def frame : DedupFrame S (NoContext S) Unit S S (Manager S) (ops sp) sp.nextStates where
  expl m := m.explored.toFinset
  fr m := (m.fringe : Multiset S)
  nsState := id
  pop_none m h := by
    rw [popState_none_iff] at h
    simp [h]
  pop_some m it m' h := by
    obtain ⟨hfr, hexp, _⟩ := popState_elim_unrh sp h
    refine ⟨hfr, ?_⟩
    dsimp only
    rw [hexp]
  valid_true m it m' h := by
    by_cases hmem : it.state ∈ m.explored
    · rw [validState_of_mem_unrh sp hmem] at h
      cases h
    · rw [validState_of_not_mem_unrh sp hmem] at h
      cases h
      refine ⟨by simpa using hmem, ?_, rfl⟩
      simp only [List.toFinset_cons]
      rfl
  valid_false m it m' h := by
    by_cases hmem : it.state ∈ m.explored
    · rw [validState_of_mem_unrh sp hmem] at h
      cases h
      exact ⟨by simpa using hmem, rfl⟩
    · rw [validState_of_not_mem_unrh sp hmem] at h
      cases h
  place_fr m it := Multiset.coe_eq_coe.mpr (List.perm_append_singleton _ _)
  place_expl m it := rfl
  register_fr m it := rfl
  register_expl m it := rfl
  prep_state m ctx ns := rfl
  ns_iter s := List.map_id _

end UnguidedNoRouteHashable

namespace GuidedNoRouteHashable

variable {S C : Type} [DecidableEq S] [LinearOrder C]
variable (sp : SearchSpace S) (score : S → C)

theorem validState_of_mem_gnrh {m : Manager S C} {it : NoContext S}
    (h : it.state ∈ m.explored) : (ops sp score).validState m it = (false, m) := by
  simp [ops, h]

theorem validState_of_not_mem_gnrh {m : Manager S C} {it : NoContext S}
    (h : it.state ∉ m.explored) :
    (ops sp score).validState m it =
      (true, { m with explored := it.state :: m.explored }) := by
  simp [ops, h]

/-- The `DedupFrame` of the guided / no-route / hashable manager. -/
def frame : DedupFrame S (NoContext S) Unit S S (Manager S C) (ops sp score)
    sp.nextStates where
  expl m := m.explored.toFinset
  fr m := ((m.fringe.map OrderedSearchable.state : List S) : Multiset S)
  nsState := id
  pop_none m h := by
    simp only [ops, Option.map_eq_none'] at h
    rw [heapPop_eq_none] at h
    simp [h]
  pop_some m it m' h := by
    simp only [ops] at h
    rcases hq : heapPop osCmp m.fringe with _ | ⟨entry, rest⟩ <;> rw [hq] at h <;>
      simp at h
    obtain ⟨rfl, rfl⟩ := h
    have hperm := heapPop_perm hq
    exact ⟨Multiset.coe_eq_coe.mpr (hperm.map OrderedSearchable.state), rfl⟩
  valid_true m it m' h := by
    by_cases hmem : it.state ∈ m.explored
    · rw [validState_of_mem_gnrh sp score hmem] at h
      cases h
    · rw [validState_of_not_mem_gnrh sp score hmem] at h
      cases h
      refine ⟨by simpa using hmem, ?_, rfl⟩
      simp only [List.toFinset_cons]
      rfl
  valid_false m it m' h := by
    by_cases hmem : it.state ∈ m.explored
    · rw [validState_of_mem_gnrh sp score hmem] at h
      cases h
      exact ⟨by simpa using hmem, rfl⟩
    · rw [validState_of_not_mem_gnrh sp score hmem] at h
      cases h
  place_fr m it := by
    dsimp only
    simp only [ops, heapPush, osOfState]
    rfl
  place_expl m it := rfl
  register_fr m it := rfl
  register_expl m it := rfl
  prep_state m ctx ns := rfl
  ns_iter s := List.map_id _

end GuidedNoRouteHashable

namespace AStarRouteHashable

variable {S C : Type} [DecidableEq S] [LinearOrder C] [AddCommMonoid C]
variable (sp : CostSpace S C)

/-- The `DedupFrame` of the A* / route / hashable manager. -/
def frame : DedupFrame S (StateParentCumulativeCost S C) (Nat × C) (S × C)
    (Option (List S)) (Manager S C) (ops sp) sp.nextStates where
  expl m := m.explored.toFinset
  fr m := ((m.fringe.map (fun e => e.state.state) : List S) : Multiset S)
  nsState := Prod.fst
  pop_none m h := by
    simp only [ops, Option.map_eq_none'] at h
    rw [heapPop_eq_none] at h
    simp [h]
  pop_some m it m' h := by
    simp only [ops] at h
    rcases hq : heapPop osCmp m.fringe with _ | ⟨entry, rest⟩ <;> rw [hq] at h <;> simp at h
    obtain ⟨rfl, rfl⟩ := h
    have hperm := heapPop_perm hq
    exact ⟨Multiset.coe_eq_coe.mpr (hperm.map (fun e => e.state.state)), rfl⟩
  valid_true m it m' h := by
    by_cases hmem : it.state ∈ m.explored
    · rw [validState_of_mem_asrh sp hmem] at h
      cases h
    · rw [validState_of_not_mem_asrh sp hmem] at h
      cases h
      refine ⟨by simpa using hmem, ?_, rfl⟩
      simp only [List.toFinset_cons]
      rfl
  valid_false m it m' h := by
    by_cases hmem : it.state ∈ m.explored
    · rw [validState_of_mem_asrh sp hmem] at h
      cases h
      exact ⟨by simpa using hmem, rfl⟩
    · rw [validState_of_not_mem_asrh sp hmem] at h
      cases h
  place_fr m it := by
    dsimp only
    simp only [ops, heapPush]
    rfl
  place_expl m it := rfl
  register_fr m it := by
    dsimp only
    rfl
  register_expl m it := rfl
  prep_state m ctx ns := rfl
  ns_iter s := rfl

end AStarRouteHashable

namespace UnguidedNoRouteUnhashable

variable {S : Type} (sp : SearchSpace S)

/-- Without explored-state culling, expanding just appends every successor
to the back of the deque. -/
theorem expandFold_eq (ctx : Unit) (l : List S) (m : Manager S) :
    expandFold (ops sp) ctx l m = { m with fringe := m.fringe ++ l } := by
  induction l generalizing m with
  | nil =>
    cases m
    simp [expandFold]
  | cons x t ih =>
    have hstep : expandStep (ops sp) ctx m x =
        { m with fringe := m.fringe ++ [x] } := rfl
    show expandFold (ops sp) ctx t (expandStep (ops sp) ctx m x) = _
    rw [hstep, ih]
    simp

end UnguidedNoRouteUnhashable

/-- The cyclic two-state space of the C1 counterexample: state `0` has the
successors `[1, 0]` (a self-loop listed after the solution), state `1` is
the unique solution and has no successors. -/
def c1CycSpace : SearchSpace Nat :=
  { nextStates := fun s => if s = 0 then [1, 0] else []
    isSolution := fun s => s = 1 }

/-- Manager states the depth-first unhashable search runs through on the
cyclic space: ever more copies of `1` buried under the self-looping `0` at
the back of the deque. -/
def c1Mgr (n : Nat) : UnguidedNoRouteUnhashable.Manager Nat :=
  { fringe := List.replicate n 1 ++ [0], depthFirst := true }

theorem c1_dfs_step (fuel n : Nat) :
    searcherNext (UnguidedNoRouteUnhashable.ops c1CycSpace) c1CycSpace.isSolution
      (fuel + 1) (c1Mgr n) =
    searcherNext (UnguidedNoRouteUnhashable.ops c1CycSpace) c1CycSpace.isSolution
      fuel (c1Mgr (n + 1)) := by
  rw [searcherNext]
  have hpop : (UnguidedNoRouteUnhashable.ops c1CycSpace).popState (c1Mgr n) =
      some (⟨0⟩, { fringe := List.replicate n 1, depthFirst := true }) := by
    simp only [UnguidedNoRouteUnhashable.ops, c1Mgr]
    rw [popBack_concat]
  rw [hpop]
  dsimp only
  rw [if_neg (by decide)]
  have hns : (UnguidedNoRouteUnhashable.ops c1CycSpace).nextStatesIter
      ((UnguidedNoRouteUnhashable.ops c1CycSpace).itemState ⟨0⟩) = [1, 0] := rfl
  rw [hns, UnguidedNoRouteUnhashable.expandFold_eq]
  have hreg : ((UnguidedNoRouteUnhashable.ops c1CycSpace).registerCurrentState
      { fringe := List.replicate n 1, depthFirst := true } ⟨0⟩).2 =
      { fringe := List.replicate n 1, depthFirst := true } := rfl
  rw [hreg]
  dsimp only
  have hfr : List.replicate n 1 ++ [1, 0] = List.replicate (n + 1) 1 ++ [0] := by
    rw [List.replicate_succ']
    simp
  simp only [c1Mgr, hfr]

theorem c1_dfs_diverges (fuel : Nat) : ∀ n : Nat, ∃ k : Nat,
    searcherNext (UnguidedNoRouteUnhashable.ops c1CycSpace) c1CycSpace.isSolution
      fuel (c1Mgr n) = .outOfFuel (c1Mgr k) := by
  induction fuel with
  | zero => exact fun n => ⟨n, rfl⟩
  | succ fuel ih =>
    intro n
    rw [c1_dfs_step]
    exact ih (n + 1)

namespace AStarRouteUnhashable

variable {S C : Type} [DecidableEq S] [LinearOrder C] [AddCommMonoid C]
variable (sp : CostSpace S C) (start : S)

theorem popState_elim_asru {m m' : Manager S C} {it : StateParentCumulativeCost S C}
    (h : (ops sp).popState m = some (it, m')) :
    ∃ entry, heapPop osCmp m.fringe = some (entry, m'.fringe) ∧
      entry.state = it ∧ entry ∈ m.fringe ∧ m'.parents = m.parents ∧
      ∀ x ∈ m'.fringe, x ∈ m.fringe := by
  simp only [ops] at h
  rcases hq : heapPop osCmp m.fringe with _ | ⟨entry, rest⟩ <;> rw [hq] at h <;> simp at h
  obtain ⟨rfl, rfl⟩ := h
  have hperm := heapPop_perm hq
  refine ⟨entry, rfl, rfl, hperm.symm.subset (List.mem_cons_self _ _), rfl, ?_⟩
  intro x hx
  exact hperm.symm.subset (List.mem_cons_of_mem _ hx)

theorem registerCurrentState_eq_asru (m : Manager S C) (it : StateParentCumulativeCost S C) :
    (ops sp).registerCurrentState m it =
      ((m.parents.length, it.cumulativeCost),
        { m with parents := m.parents ++ [it.toStateParent] }) := rfl

theorem expandStep_eq (ctx : Nat × C) (m : Manager S C) (ns : S × C) :
    expandStep (ops sp) ctx m ns =
      { m with fringe := AStarRouteHashable.mkEntry sp ctx ns :: m.fringe } := rfl

theorem expandFold_parents_asru (ctx : Nat × C) (l : List (S × C)) (m : Manager S C) :
    (expandFold (ops sp) ctx l m).parents = m.parents := by
  induction l generalizing m with
  | nil => rfl
  | cons x t ih =>
    show (expandFold (ops sp) ctx t (expandStep (ops sp) ctx m x)).parents = _
    rw [ih, expandStep_eq]

theorem expandFold_fringe_mono_asru (ctx : Nat × C) (l : List (S × C)) (m : Manager S C) :
    ∀ x ∈ m.fringe, x ∈ (expandFold (ops sp) ctx l m).fringe := by
  induction l generalizing m with
  | nil => exact fun x hx => hx
  | cons a t ih =>
    intro x hx
    refine ih (expandStep (ops sp) ctx m a) x ?_
    rw [expandStep_eq]
    exact List.mem_cons_of_mem _ hx

theorem expandFold_mem_of (ctx : Nat × C) (l : List (S × C)) (m : Manager S C) :
    ∀ ns ∈ l, AStarRouteHashable.mkEntry sp ctx ns ∈
      (expandFold (ops sp) ctx l m).fringe := by
  induction l generalizing m with
  | nil => intro ns h; cases h
  | cons a t ih =>
    intro ns hns
    rcases List.mem_cons.mp hns with rfl | hns
    · refine expandFold_fringe_mono_asru sp ctx t (expandStep (ops sp) ctx m ns) _ ?_
      rw [expandStep_eq]
      exact List.mem_cons_self _ _
    · exact ih (expandStep (ops sp) ctx m a) ns hns

theorem expandFold_fringe_mem_asru (ctx : Nat × C) (l : List (S × C)) (m : Manager S C) :
    ∀ x ∈ (expandFold (ops sp) ctx l m).fringe,
      x ∈ m.fringe ∨ ∃ ns ∈ l, x = AStarRouteHashable.mkEntry sp ctx ns := by
  induction l generalizing m with
  | nil => exact fun x hx => Or.inl hx
  | cons a t ih =>
    intro x hx
    rcases ih (expandStep (ops sp) ctx m a) x hx with hx' | ⟨u, hu, rfl⟩
    · rw [expandStep_eq] at hx'
      rcases List.mem_cons.mp hx' with rfl | hx''
      · exact Or.inr ⟨a, List.mem_cons_self _ _, rfl⟩
      · exact Or.inl hx''
    · exact Or.inr ⟨u, List.mem_cons_of_mem _ hu, rfl⟩

/-- Run invariant of the non-deduplicating A* route manager: well-formed
arena, good heap entries, and — the key to optimality — for every
cost-annotated path from the start to a solution, some frontier entry sits
on that path with exactly the path-prefix cost as its cumulative cost. -/
def OInv (m : Manager S C) : Prop :=
  ArenaWF m.parents ∧
  (∀ e ∈ m.fringe, AStarRouteHashable.GoodEntry sp start m.parents e) ∧
  (∀ q, CSteps sp start q → sp.isSolution (pathEnd start q) = true →
    ∃ e ∈ m.fringe, ∃ k, k ≤ q.length ∧
      e.state.state = pathEnd start (q.take k) ∧
      e.state.cumulativeCost = pathCost (q.take k))

theorem oinv_init : OInv sp start (initManager sp start) := by
  refine ⟨?_, ?_, ?_⟩
  · intro i e hg pi hp
    rcases i with _ | i
    · simp [initManager] at hg
      rw [← hg] at hp
      cases hp
    · simp [initManager] at hg
  · intro entry hentry
    simp [initManager] at hentry
    subst hentry
    refine ⟨fun pi hp => ?_, (add_zero _).symm, ⟨[], trivial, rfl, rfl⟩⟩
    cases hp
  · intro q hq hqsol
    refine ⟨_, List.mem_cons_self _ _, 0, Nat.zero_le _, rfl, rfl⟩

theorem oinv_step {m m' : Manager S C}
    (h : IterStep (ops sp) sp.isSolution m m') (hi : OInv sp start m) :
    OInv sp start m' := by
  obtain ⟨wf, hfr, hpfx⟩ := hi
  cases h with
  | mk hpop hsol =>
    rename_i cur m1
    obtain ⟨entry, hq, hentst, hentmem, hpar1, hfr1⟩ := popState_elim_asru sp hpop
    subst hentst
    obtain ⟨hwfc, hsc, steps, hcs, hroute, hcost⟩ := hfr entry hentmem
    rw [registerCurrentState_eq_asru]
    set P := m.parents with hP
    have hpar1' : m1.parents = P := hpar1
    have hm2par : ({ m1 with
        parents := m1.parents ++ [entry.state.toStateParent] } :
        Manager S C).parents = P ++ [entry.state.toStateParent] := by
      simp [hpar1']
    have wf2 : ArenaWF (P ++ [entry.state.toStateParent]) := ArenaWF.push wf hwfc
    have hctx1 : m1.parents.length = P.length := by rw [hpar1']
    have hend : pathEnd start steps = entry.state.state := by
      have h1 := pathEnd_getLast start steps
      have h2 := (prepareResult_getLast hroute).2
      rw [h1] at h2
      exact Option.some_injective _ h2
    refine ⟨?_, ?_, ?_⟩
    · rw [expandFold_parents_asru, hm2par]
      exact wf2
    · intro x hx
      rw [expandFold_parents_asru, hm2par]
      rcases expandFold_fringe_mem_asru sp _ _ _ x hx with hold | ⟨ns, hns, rfl⟩
      · have hold' : x ∈ m1.fringe := hold
        obtain ⟨hwfx, hscx, stepsx, hcsx, hroutex, hcostx⟩ :=
          hfr x (hfr1 x hold')
        refine ⟨?_, hscx, stepsx, hcsx, ?_, hcostx⟩
        · intro pi hpi
          have := hwfx pi hpi
          simp only [List.length_append]
          omega
        · rw [prepareResult_append wf hwfx]
          exact hroutex
      · rcases ns with ⟨t, c⟩
        dsimp only
        have hedge : (t, c) ∈ sp.nextStatesWithCosts entry.state.state := hns
        have harg : (AStarRouteHashable.mkEntry sp
            (m1.parents.length, entry.state.cumulativeCost)
            (t, c)).state.toStateParent =
            ({ state := t, parent := some P.length } : StateParent S) := by
          simp [AStarRouteHashable.mkEntry,
            StateParentCumulativeCost.toStateParent, hctx1]
        refine ⟨?_, rfl, ⟨steps ++ [(t, c)], ?_, ?_, ?_⟩⟩
        · intro pi hpi
          rw [harg] at hpi
          cases hpi
          simp
        · refine csteps_append_single hcs ?_
          rw [hend]
          exact hedge
        · have hroute' := route_extend wf hwfc hroute t
          rw [harg, hroute']
          simp
        · simp only [AStarRouteHashable.mkEntry]
          rw [hcost]
          simp [pathCost]
    · intro q hq2 hqsol
      obtain ⟨e_w, hwmem, k, hk, hwstate, hwcost⟩ := hpfx q hq2 hqsol
      have hperm := heapPop_perm hq
      have hw2 : e_w = entry ∨ e_w ∈ m1.fringe := List.mem_cons.mp (hperm.subset hwmem)
      rcases hw2 with rfl | hw2
      · have hklt : k < q.length := by
          rcases Nat.lt_or_ge k q.length with hlt | hge
          · exact hlt
          · exfalso
            have hkq : k = q.length := le_antisymm hk hge
            subst hkq
            rw [List.take_length] at hwstate
            have hcontr : sp.isSolution e_w.state.state = false := hsol
            rw [hwstate, hqsol] at hcontr
            cases hcontr
        have hnsmem : q.get ⟨k, hklt⟩ ∈ sp.nextStatesWithCosts e_w.state.state := by
          rw [hwstate]
          exact csteps_get_mem hq2 k hklt
        have hnsl : q.get ⟨k, hklt⟩ ∈
            (ops sp).nextStatesIter ((ops sp).itemState e_w.state) := hnsmem
        refine ⟨AStarRouteHashable.mkEntry sp
            (m1.parents.length, e_w.state.cumulativeCost) (q.get ⟨k, hklt⟩),
          expandFold_mem_of sp _ _ _ _ hnsl, k + 1, by omega, ?_, ?_⟩
        · rcases hg : q.get ⟨k, hklt⟩ with ⟨t, c⟩
          rw [take_succ_eq q k hklt, hg, pathEnd_append_single]
          simp [AStarRouteHashable.mkEntry, hg]
        · rcases hg : q.get ⟨k, hklt⟩ with ⟨t, c⟩
          rw [take_succ_eq q k hklt, hg, pathCost_append_single, ← hwcost]
          simp [AStarRouteHashable.mkEntry, hg]
      · refine ⟨e_w, ?_, k, hk, hwstate, hwcost⟩
        exact expandFold_fringe_mono_asru sp _ _ _ e_w hw2

theorem oinv_reach {m m' : Manager S C}
    (h : DriverReach (ops sp) sp.isSolution m m') (base : OInv sp start m) :
    OInv sp start m' :=
  DriverReach.preserve (fun _ _ hs hi => oinv_step sp start hs hi) h base

end AStarRouteUnhashable

/-- C3: deduplicating managers admit a state into the frontier at most once
per distinct state value over an entire driver run — `valid_state` answers
`true` exactly when the state is not yet in the visited set, inserts it at
that moment (before any `place_state` call), and leaves the manager
untouched on rejection; a repeat of a state, even within the same expansion
step, is rejected; every driver iteration consists only of such manager
calls; non-deduplicating managers answer `true` always. -/
theorem c3_visited_set_admits_once {S C : Type} [DecidableEq S] [LinearOrder C]
    [Add C] (sp : SearchSpace S) (csp : CostSpace S C) :
    (∀ (m : UnguidedNoRouteHashable.Manager S) (it : NoContext S),
      (((UnguidedNoRouteHashable.ops sp).validState m it).1 = true ↔
        it.state ∉ m.explored) ∧
      (it.state ∉ m.explored → (UnguidedNoRouteHashable.ops sp).validState m it =
        (true, { m with explored := it.state :: m.explored })) ∧
      (it.state ∈ m.explored →
        (UnguidedNoRouteHashable.ops sp).validState m it = (false, m))) ∧
    (∀ (m : AStarRouteHashable.Manager S C) (it : StateParentCumulativeCost S C),
      (((AStarRouteHashable.ops csp).validState m it).1 = true ↔
        it.state ∉ m.explored) ∧
      (it.state ∉ m.explored → (AStarRouteHashable.ops csp).validState m it =
        (true, { m with explored := it.state :: m.explored })) ∧
      (it.state ∈ m.explored →
        (AStarRouteHashable.ops csp).validState m it = (false, m))) ∧
    (∀ (m : UnguidedNoRouteUnhashable.Manager S) (it : NoContext S),
      (UnguidedNoRouteUnhashable.ops sp).validState m it = (true, m)) ∧
    (∀ (m : AStarRouteUnhashable.Manager S C) (it : StateParentCumulativeCost S C),
      (AStarRouteUnhashable.ops csp).validState m it = (true, m)) ∧
    (∀ (m m' : UnguidedNoRouteHashable.Manager S) (it : NoContext S),
      (UnguidedNoRouteHashable.ops sp).validState m it = (true, m') →
      ∀ m'', Relation.ReflTransGen (MgrOp (UnguidedNoRouteHashable.ops sp)) m' m'' →
      ∀ it' : NoContext S, it'.state = it.state →
        ((UnguidedNoRouteHashable.ops sp).validState m'' it').1 = false) ∧
    (∀ (l1 l2 : List S) (s : S) (m : UnguidedNoRouteHashable.Manager S),
      ((UnguidedNoRouteHashable.ops sp).validState
        (expandFold (UnguidedNoRouteHashable.ops sp) () (l1 ++ s :: l2) m)
        ((UnguidedNoRouteHashable.ops sp).prepareState
          (expandFold (UnguidedNoRouteHashable.ops sp) () (l1 ++ s :: l2) m) () s)).1 =
        false) ∧
    (∀ (State Item Ctx NS Y M : Type) (ops : ManagerOps State Item Ctx NS Y M)
      (isSol : State → Bool) (m m' : M), IterStep ops isSol m m' →
        Relation.ReflTransGen (MgrOp ops) m m') := by
  refine ⟨fun m it => ⟨?_, fun h => UnguidedNoRouteHashable.validState_of_not_mem_unrh sp h,
      fun h => UnguidedNoRouteHashable.validState_of_mem_unrh sp h⟩,
    fun m it => ⟨?_, fun h => AStarRouteHashable.validState_of_not_mem_asrh csp h,
      fun h => AStarRouteHashable.validState_of_mem_asrh csp h⟩,
    fun m it => rfl, fun m it => rfl, ?_, ?_, ?_⟩
  · by_cases h : it.state ∈ m.explored
    · rw [UnguidedNoRouteHashable.validState_of_mem_unrh sp h]
      simp [h]
    · rw [UnguidedNoRouteHashable.validState_of_not_mem_unrh sp h]
      simp [h]
  · by_cases h : it.state ∈ m.explored
    · rw [AStarRouteHashable.validState_of_mem_asrh csp h]
      simp [h]
    · rw [AStarRouteHashable.validState_of_not_mem_asrh csp h]
      simp [h]
  · intro m m' it hv m'' hrtg it' hstate
    by_cases hmem : it.state ∈ m.explored
    · rw [UnguidedNoRouteHashable.validState_of_mem_unrh sp hmem] at hv
      cases hv
    · rw [UnguidedNoRouteHashable.validState_of_not_mem_unrh sp hmem] at hv
      have hm' : it.state ∈ m'.explored := by
        cases hv
        exact List.mem_cons_self _ _
      have hm'' : it'.state ∈ m''.explored := by
        rw [hstate]
        exact UnguidedNoRouteHashable.mgrOps_explored_mono sp hrtg hm'
      rw [UnguidedNoRouteHashable.validState_of_mem_unrh sp hm'']
  · intro l1 l2 s m
    have hsplit : expandFold (UnguidedNoRouteHashable.ops sp) () (l1 ++ s :: l2) m =
        expandFold (UnguidedNoRouteHashable.ops sp) () (s :: l2)
          (expandFold (UnguidedNoRouteHashable.ops sp) () l1 m) := by
      simp [expandFold, List.foldl_append]
    have hmem : s ∈ (expandFold (UnguidedNoRouteHashable.ops sp) ()
        (l1 ++ s :: l2) m).explored := by
      rw [hsplit]
      exact UnguidedNoRouteHashable.expandFold_covers_unrh sp () (s :: l2) _ s
        (List.mem_cons_self _ _)
    have hps : (UnguidedNoRouteHashable.ops sp).prepareState
        (expandFold (UnguidedNoRouteHashable.ops sp) () (l1 ++ s :: l2) m) () s =
        ⟨s⟩ := rfl
    rw [hps, UnguidedNoRouteHashable.validState_of_mem_unrh sp
      (show (⟨s⟩ : NoContext S).state ∈
        (expandFold (UnguidedNoRouteHashable.ops sp) () (l1 ++ s :: l2) m).explored
        from hmem)]
  · intro State Item Ctx NS Y M ops isSol m m' h
    exact iterStep_mgrOps h

/-- C3 witness: on a concrete manager that has already visited the state,
`valid_state` rejects and leaves the manager unchanged. -/
theorem c3_visited_set_admits_once_witness :
    ((5 : Nat) ∈
      ({ explored := [5], fringe := [], depthFirst := false } :
        UnguidedNoRouteHashable.Manager Nat).explored) ∧
    (UnguidedNoRouteHashable.ops (⟨fun _ => [], fun _ => false⟩ : SearchSpace Nat)).validState
        { explored := [5], fringe := [], depthFirst := false } ⟨5⟩ =
      (false, { explored := [5], fringe := [], depthFirst := false }) :=
  ⟨by decide,
    ((c3_visited_set_admits_once
        (⟨fun _ => [], fun _ => false⟩ : SearchSpace Nat)
        (⟨fun _ => [], fun _ => 0, fun _ => false⟩ : CostSpace Nat Nat)).1
      { explored := [5], fringe := [], depthFirst := false } ⟨5⟩).2.2 (by decide)⟩

/-- C7: in route-yielding managers driven by the search loop, every parent
index stored in a frontier item or arena entry refers to an arena position
filled before it, so path reconstruction never hits a missing index — the
internal `expect` is unreachable. -/
theorem c7_arena_lookups_always_succeed {S C : Type} [DecidableEq S]
    [LinearOrder C] [AddCommMonoid C] (sp : SearchSpace S) (csp : CostSpace S C)
    (start : S) :
    (∀ (flag : Bool) (m : UnguidedRouteHashable.Manager S),
      DriverReach (UnguidedRouteHashable.ops sp) sp.isSolution
        { UnguidedRouteHashable.initManager start with depthFirst := flag } m →
      ArenaWF m.parents ∧
      ∀ it ∈ m.fringe, ItemWF m.parents it ∧
        (prepareResultFromStateParentMap m.parents it).isSome) ∧
    (∀ m : AStarRouteHashable.Manager S C,
      DriverReach (AStarRouteHashable.ops csp) csp.isSolution
        (AStarRouteHashable.initManager csp start) m →
      ArenaWF m.parents ∧
      ∀ entry ∈ m.fringe, ItemWF m.parents entry.state.toStateParent ∧
        (prepareResultFromStateParentMap m.parents entry.state.toStateParent).isSome) := by
  constructor
  · intro flag m hreach
    have hinv := UnguidedRouteHashable.rinv_reach sp start hreach
      (UnguidedRouteHashable.rinv_init sp start flag)
    obtain ⟨wf, _, hfr⟩ := hinv
    refine ⟨wf, fun it hit => ?_⟩
    obtain ⟨hwf, p, hp, _, _, _⟩ := hfr it hit
    exact ⟨hwf, by rw [hp]; rfl⟩
  · intro m hreach
    have hinv := AStarRouteHashable.ainv_reach csp start hreach
      (AStarRouteHashable.ainv_init csp start)
    obtain ⟨wf, hfr⟩ := hinv
    refine ⟨wf, fun entry hentry => ?_⟩
    obtain ⟨hwf, _, steps, _, hroute, _⟩ := hfr entry hentry
    exact ⟨hwf, by rw [hroute]; rfl⟩

/-- C7 witness: the invariant holds at the freshly constructed manager. -/
theorem c7_arena_lookups_always_succeed_witness :
    ArenaWF ({ UnguidedRouteHashable.initManager (0 : Nat) with
        depthFirst := false } : UnguidedRouteHashable.Manager Nat).parents ∧
    ∀ it ∈ ({ UnguidedRouteHashable.initManager (0 : Nat) with
        depthFirst := false } : UnguidedRouteHashable.Manager Nat).fringe,
      ItemWF ({ UnguidedRouteHashable.initManager (0 : Nat) with
        depthFirst := false } : UnguidedRouteHashable.Manager Nat).parents it ∧
      (prepareResultFromStateParentMap
        ({ UnguidedRouteHashable.initManager (0 : Nat) with
          depthFirst := false } : UnguidedRouteHashable.Manager Nat).parents
        it).isSome :=
  (c7_arena_lookups_always_succeed
    (⟨fun _ => [], fun _ => false⟩ : SearchSpace Nat)
    (⟨fun _ => [], fun _ => 0, fun _ => false⟩ : CostSpace Nat Nat) 0).1 false
    _ Relation.ReflTransGen.refl

/-- C4: every route yielded by a route-yielding manager is nonempty, starts
at the initial state, ends at the popped solution state, and its adjacent
pairs are one-step transitions of the domain's successor function. -/
theorem c4_yielded_routes_are_paths {S C : Type} [DecidableEq S]
    [LinearOrder C] [AddCommMonoid C] (sp : SearchSpace S) (csp : CostSpace S C)
    (start : S) :
    (∀ (flag : Bool) (fuel : Nat) (y : Option (List S))
      (m' : UnguidedRouteHashable.Manager S),
      searcherNext (UnguidedRouteHashable.ops sp) sp.isSolution fuel
        { UnguidedRouteHashable.initManager start with depthFirst := flag } =
        .found y m' →
      ∃ p s, y = some p ∧ p ≠ [] ∧ p.head? = some start ∧ p.getLast? = some s ∧
        sp.isSolution s = true ∧ List.Chain' (fun a b => b ∈ sp.nextStates a) p) ∧
    (∀ (fuel : Nat) (y : Option (List S)) (m' : AStarRouteHashable.Manager S C),
      searcherNext (AStarRouteHashable.ops csp) csp.isSolution fuel
        (AStarRouteHashable.initManager csp start) = .found y m' →
      ∃ p s, y = some p ∧ p ≠ [] ∧ p.head? = some start ∧ p.getLast? = some s ∧
        csp.isSolution s = true ∧
        List.Chain' (fun a b => b ∈ csp.nextStates a) p) := by
  constructor
  · intro flag fuel y m' hrun
    obtain ⟨m₀, cur, hreach, hpop, hsol, hy⟩ := searcherNext_found_elim hrun
    have hinv := UnguidedRouteHashable.rinv_reach sp start hreach
      (UnguidedRouteHashable.rinv_init sp start flag)
    obtain ⟨wf, _, hfr⟩ := hinv
    obtain ⟨hcur, hpar, _, _, _⟩ := UnguidedRouteHashable.popState_elim_urh sp hpop
    obtain ⟨hwf, p, hp, hh, hl, hc⟩ := hfr cur hcur
    refine ⟨p, cur.state, ?_, (prepareResult_getLast hp).1, hh, hl, hsol, hc⟩
    rw [hy]
    show prepareResultFromStateParentMap m'.parents cur = some p
    rw [hpar]
    exact hp
  · intro fuel y m' hrun
    obtain ⟨m₀, cur, hreach, hpop, hsol, hy⟩ := searcherNext_found_elim hrun
    have hinv := AStarRouteHashable.ainv_reach csp start hreach
      (AStarRouteHashable.ainv_init csp start)
    obtain ⟨wf, hfr⟩ := hinv
    obtain ⟨entry, hq, hentst, hentmem, hpar, _, _⟩ :=
      AStarRouteHashable.popState_elim_asrh csp hpop
    subst hentst
    obtain ⟨hwf, hsc, steps, hcs, hroute, hcost⟩ := hfr entry hentmem
    refine ⟨start :: steps.map Prod.fst, entry.state.state, ?_, by simp, rfl, ?_,
      hsol, csteps_chain hcs⟩
    · rw [hy]
      show prepareResultFromStateParentMap m'.parents entry.state.toStateParent =
        some (start :: steps.map Prod.fst)
      rw [hpar]
      exact hroute
    · have h2 := (prepareResult_getLast hroute).2
      exact h2

/-- C4 witness: a concrete breadth-first route search on the one-edge space
`0 → 1` with solution `1` yields the route `[0, 1]`. -/
theorem c4_yielded_routes_are_paths_witness :
    (searcherNext
        (UnguidedRouteHashable.ops
          (⟨fun s => if s = 0 then [1] else [], fun s => s = 1⟩ : SearchSpace Nat))
        (fun s => s = 1) 2
        { UnguidedRouteHashable.initManager 0 with depthFirst := false } =
      .found (some [0, 1])
        { explored := [1, 0]
          fringe := []
          parents := [{ state := 0, parent := none }, { state := 0, parent := none }]
          depthFirst := false }) ∧
    ∃ p s, (some [0, 1] : Option (List Nat)) = some p ∧ p ≠ [] ∧
      p.head? = some 0 ∧ p.getLast? = some s ∧
      ((⟨fun s => if s = 0 then [1] else [], fun s => s = 1⟩ :
        SearchSpace Nat)).isSolution s = true ∧
      List.Chain' (fun a b =>
        b ∈ ((⟨fun s => if s = 0 then [1] else [], fun s => s = 1⟩ :
          SearchSpace Nat)).nextStates a) p := by
  have hrun : searcherNext
      (UnguidedRouteHashable.ops
        (⟨fun s => if s = 0 then [1] else [], fun s => s = 1⟩ : SearchSpace Nat))
      (fun s => s = 1) 2
      { UnguidedRouteHashable.initManager 0 with depthFirst := false } =
      .found (some [0, 1])
        { explored := [1, 0]
          fringe := []
          parents := [{ state := 0, parent := none }, { state := 0, parent := none }]
          depthFirst := false } := by decide
  refine ⟨hrun, ?_⟩
  exact (c4_yielded_routes_are_paths
    (⟨fun s => if s = 0 then [1] else [], fun s => s = 1⟩ : SearchSpace Nat)
    (⟨fun _ => [], fun _ => 0, fun _ => false⟩ : CostSpace Nat Nat) 0).1
    false 2 (some [0, 1]) _ hrun

/-- C5: in the A* managers the heap priority of a frontier entry equals its
cumulative cost plus the heuristic score of its state; the initial state's
cumulative cost is zero (priority = heuristic alone), each successor's
cumulative cost is the expanded parent's cumulative cost plus the per-edge
cost, and over a run the cumulative cost of every frontier entry is the sum
of per-edge costs along its discovered route. -/
theorem c5_a_star_priority_is_cost_plus_score {S C : Type} [DecidableEq S]
    [LinearOrder C] [AddCommMonoid C] (sp : CostSpace S C) (start : S) :
    ((AStarRouteHashable.initManager sp start).fringe =
        [{ state := { state := start, parent := none, cumulativeCost := 0 }
           score := sp.score start }] ∧
      (AStarRouteUnhashable.initManager sp start).fringe =
        [{ state := { state := start, parent := none, cumulativeCost := 0 }
           score := sp.score start }] ∧
      (AStarNoRouteUnhashable.initManager sp start).fringe =
        [{ state := { state := start, cumulativeCost := 0 }
           score := sp.score start }]) ∧
    (∀ (m : AStarRouteHashable.Manager S C) (pi : Nat) (cc : C) (t : S) (c : C),
      (AStarRouteHashable.ops sp).prepareState m (pi, cc) (t, c) =
        { state := t, parent := some pi, cumulativeCost := cc + c }) ∧
    (∀ (m : AStarRouteUnhashable.Manager S C) (pi : Nat) (cc : C) (t : S) (c : C),
      (AStarRouteUnhashable.ops sp).prepareState m (pi, cc) (t, c) =
        { state := t, parent := some pi, cumulativeCost := cc + c }) ∧
    (∀ (m : AStarNoRouteUnhashable.Manager S C) (cc : C) (t : S) (c : C),
      (AStarNoRouteUnhashable.ops sp).prepareState m cc (t, c) =
        { state := t, cumulativeCost := cc + c }) ∧
    (∀ (m : AStarRouteHashable.Manager S C) (it : StateParentCumulativeCost S C),
      ((AStarRouteHashable.ops sp).registerCurrentState m it).1 =
        (m.parents.length, it.cumulativeCost)) ∧
    (∀ (m : AStarRouteHashable.Manager S C) (it : StateParentCumulativeCost S C),
      ((AStarRouteHashable.ops sp).placeState m it).fringe =
        { state := it, score := it.cumulativeCost + sp.score it.state } :: m.fringe) ∧
    (∀ (m : AStarRouteUnhashable.Manager S C) (it : StateParentCumulativeCost S C),
      ((AStarRouteUnhashable.ops sp).placeState m it).fringe =
        { state := it, score := it.cumulativeCost + sp.score it.state } :: m.fringe) ∧
    (∀ (m : AStarNoRouteUnhashable.Manager S C) (it : StateCumulativeCost S C),
      ((AStarNoRouteUnhashable.ops sp).placeState m it).fringe =
        { state := it, score := it.cumulativeCost + sp.score it.state } :: m.fringe) ∧
    (∀ m : AStarRouteHashable.Manager S C,
      DriverReach (AStarRouteHashable.ops sp) sp.isSolution
        (AStarRouteHashable.initManager sp start) m →
      ∀ entry ∈ m.fringe,
        entry.score = entry.state.cumulativeCost + sp.score entry.state.state ∧
        ∃ steps, CSteps sp start steps ∧
          prepareResultFromStateParentMap m.parents entry.state.toStateParent =
            some (start :: steps.map Prod.fst) ∧
          entry.state.cumulativeCost = pathCost steps) := by
  refine ⟨⟨rfl, rfl, rfl⟩, fun m pi cc t c => rfl, fun m pi cc t c => rfl,
    fun m cc t c => rfl, fun m it => rfl, ?_, ?_, ?_, ?_⟩
  · intro m it
    simp [AStarRouteHashable.ops, heapPush, add_comm]
  · intro m it
    simp [AStarRouteUnhashable.ops, heapPush, add_comm]
  · intro m it
    simp [AStarNoRouteUnhashable.ops, heapPush, add_comm]
  · intro m hreach entry hentry
    have hinv := AStarRouteHashable.ainv_reach sp start hreach
      (AStarRouteHashable.ainv_init sp start)
    obtain ⟨hwf, hsc, steps, hcs, hroute, hcost⟩ := hinv.2 entry hentry
    exact ⟨by rw [hsc, add_comm], steps, hcs, hroute, hcost⟩

/-- Concrete cost space used by the C5 witness. -/
def c5Space : CostSpace Nat Nat :=
  { nextStatesWithCosts := fun _ => [], score := fun _ => 3, isSolution := fun _ => false }

/-- Concrete frontier entry used by the C5 witness. -/
def c5Entry : OrderedSearchable (StateParentCumulativeCost Nat Nat) Nat :=
  { state := { state := 7, parent := none, cumulativeCost := 0 }, score := 3 }

/-- C5 witness: at the freshly constructed manager on a concrete space the
single frontier entry has cumulative cost `0`, priority `0 + score`, and
the empty discovered path. -/
theorem c5_a_star_priority_is_cost_plus_score_witness :
    c5Entry ∈ (AStarRouteHashable.initManager c5Space 7).fringe ∧
    (c5Entry.score = c5Entry.state.cumulativeCost + c5Space.score c5Entry.state.state ∧
      ∃ steps, CSteps c5Space 7 steps ∧
        prepareResultFromStateParentMap
          (AStarRouteHashable.initManager c5Space 7).parents
          c5Entry.state.toStateParent = some (7 :: steps.map Prod.fst) ∧
        c5Entry.state.cumulativeCost = pathCost steps) := by
  refine ⟨by decide, ?_⟩
  exact (c5_a_star_priority_is_cost_plus_score c5Space 7).2.2.2.2.2.2.2.2 _
    Relation.ReflTransGen.refl c5Entry (by decide)

/-- C1 counterexample: on a finite cyclic space with a unique solution
reachable from the start, the depth-first non-deduplicating variant never
yields anything — the claim fails for the unhashable depth-first manager. -/
theorem c1_counterexample_dfs_unhashable_diverges :
    c1Mgr 0 = { UnguidedNoRouteUnhashable.initManager 0 with depthFirst := true } ∧
    (1 : Nat) ∈ c1CycSpace.nextStates 0 ∧
    c1CycSpace.isSolution 1 = true ∧
    (∀ s ∈ ([0, 1] : List Nat), ∀ t ∈ c1CycSpace.nextStates s, t ∈ ([0, 1] : List Nat)) ∧
    (∀ s ∈ ([0, 1] : List Nat), c1CycSpace.isSolution s = true → s = 1) ∧
    ¬ ∃ (fuel : Nat) (y : Nat) (m' : UnguidedNoRouteUnhashable.Manager Nat),
        searcherNext (UnguidedNoRouteUnhashable.ops c1CycSpace)
          c1CycSpace.isSolution fuel (c1Mgr 0) = .found y m' := by
  refine ⟨rfl, by decide, by decide, by decide, by decide, ?_⟩
  rintro ⟨fuel, y, m', hfound⟩
  obtain ⟨k, hk⟩ := c1_dfs_diverges fuel 0
  rw [hk] at hfound
  cases hfound

/-- C1 (amended to the deduplicating variants): on every finite successor-
closed state set containing a unique reachable solution, the breadth-first,
depth-first, guided and A* deduplicating (hashable) managers eventually
yield that solution; and for every input space, every result any driver
yields is packaged from a popped item whose state passes the solution
predicate. -/
theorem c1_dedup_variants_yield_unique_solution :
    (∀ (State Item Ctx NS Y M : Type) (ops : ManagerOps State Item Ctx NS Y M)
      (isSol : State → Bool) (fuel : Nat) (m : M) (y : Y) (m' : M),
      searcherNext ops isSol fuel m = .found y m' →
      ∃ m₀ cur, ops.popState m₀ = some (cur, m') ∧
        isSol (ops.itemState cur) = true ∧ y = ops.prepareResultFrom m' cur) ∧
    (∀ (S : Type) [DecidableEq S] (sp : SearchSpace S) (R : Finset S)
      (start sol : S) (flag : Bool),
      (∀ s ∈ R, ∀ t ∈ sp.nextStates s, t ∈ R) →
      Relation.ReflTransGen (fun a b => b ∈ sp.nextStates a) start sol →
      sp.isSolution sol = true →
      (∀ s ∈ R, sp.isSolution s = true → s = sol) →
      start ∈ R →
      ∀ fuel : Nat, 1 + 2 * R.card < fuel →
        ∃ m', searcherNext (UnguidedNoRouteHashable.ops sp) sp.isSolution fuel
          { UnguidedNoRouteHashable.initManager start with depthFirst := flag } =
            .found sol m') ∧
    (∀ (S C : Type) [DecidableEq S] [LinearOrder C] (sp : SearchSpace S)
      (score : S → C) (R : Finset S) (start sol : S),
      (∀ s ∈ R, ∀ t ∈ sp.nextStates s, t ∈ R) →
      Relation.ReflTransGen (fun a b => b ∈ sp.nextStates a) start sol →
      sp.isSolution sol = true →
      (∀ s ∈ R, sp.isSolution s = true → s = sol) →
      start ∈ R →
      ∀ fuel : Nat, 1 + 2 * R.card < fuel →
        ∃ m', searcherNext (GuidedNoRouteHashable.ops sp score) sp.isSolution fuel
          (GuidedNoRouteHashable.initManager score start) = .found sol m') ∧
    (∀ (S C : Type) [DecidableEq S] [LinearOrder C] [AddCommMonoid C]
      (sp : CostSpace S C) (R : Finset S) (start sol : S),
      (∀ s ∈ R, ∀ t ∈ sp.nextStates s, t ∈ R) →
      Relation.ReflTransGen (fun a b => b ∈ sp.nextStates a) start sol →
      sp.isSolution sol = true →
      (∀ s ∈ R, sp.isSolution s = true → s = sol) →
      start ∈ R →
      ∀ fuel : Nat, 1 + 2 * R.card < fuel →
        ∃ y m' p, searcherNext (AStarRouteHashable.ops sp) sp.isSolution fuel
            (AStarRouteHashable.initManager sp start) = .found y m' ∧
          y = some p ∧ p.head? = some start ∧ p.getLast? = some sol) := by
  refine ⟨?_, ?_, ?_, ?_⟩
  · intro State Item Ctx NS Y M ops isSol fuel m y m' h
    obtain ⟨m₀, cur, _, hpop, hsol, hy⟩ := searcherNext_found_elim h
    exact ⟨m₀, cur, hpop, hsol, hy⟩
  · intro S _ sp R start sol flag hclosed hreach hsolt huniq hstartR fuel hfuel
    set F := UnguidedNoRouteHashable.frame sp
    set m₀ := ({ UnguidedNoRouteHashable.initManager start with depthFirst := flag } :
      UnguidedNoRouteHashable.Manager S)
    have hinv : F.Inv R start sp.isSolution m₀ := by
      refine ⟨?_, ?_, ?_, ?_⟩
      · intro s hs
        simp [F, UnguidedNoRouteHashable.frame, m₀,
          UnguidedNoRouteHashable.initManager] at hs ⊢
        exact hs
      · intro s hs
        simp [F, UnguidedNoRouteHashable.frame, m₀,
          UnguidedNoRouteHashable.initManager] at hs
        rw [hs]
        exact hstartR
      · simp [F, UnguidedNoRouteHashable.frame, m₀, UnguidedNoRouteHashable.initManager]
      · intro s hs
        simp [F, UnguidedNoRouteHashable.frame, m₀,
          UnguidedNoRouteHashable.initManager] at hs
        subst hs
        left
        simp [F, UnguidedNoRouteHashable.frame, m₀, UnguidedNoRouteHashable.initManager]
    have hpot : F.pot R m₀ < fuel := by
      have h1 : Multiset.card (F.fr m₀) = 1 := by
        simp [F, UnguidedNoRouteHashable.frame, m₀, UnguidedNoRouteHashable.initManager]
      rw [DedupFrame.pot, h1]
      omega
    obtain ⟨mr, cur, m', _, _, _, hcursol, hrun⟩ :=
      F.complete hclosed hreach hsolt huniq fuel m₀ hinv hpot
    refine ⟨m', ?_⟩
    rw [hrun]
    have : (UnguidedNoRouteHashable.ops sp).prepareResultFrom m' cur = sol := hcursol
    rw [this]
  · intro S C _ _ sp score R start sol hclosed hreach hsolt huniq hstartR fuel hfuel
    set F := GuidedNoRouteHashable.frame sp score
    set m₀ := GuidedNoRouteHashable.initManager score start
    have hinv : F.Inv R start sp.isSolution m₀ := by
      refine ⟨?_, ?_, ?_, ?_⟩
      · intro s hs
        simp [F, GuidedNoRouteHashable.frame, m₀, GuidedNoRouteHashable.initManager,
          osOfState] at hs ⊢
        exact hs
      · intro s hs
        simp [F, GuidedNoRouteHashable.frame, m₀,
          GuidedNoRouteHashable.initManager] at hs
        rw [hs]
        exact hstartR
      · simp [F, GuidedNoRouteHashable.frame, m₀, GuidedNoRouteHashable.initManager]
      · intro s hs
        simp [F, GuidedNoRouteHashable.frame, m₀,
          GuidedNoRouteHashable.initManager] at hs
        subst hs
        left
        simp [F, GuidedNoRouteHashable.frame, m₀, GuidedNoRouteHashable.initManager,
          osOfState]
    have hpot : F.pot R m₀ < fuel := by
      have h1 : Multiset.card (F.fr m₀) = 1 := by
        simp [F, GuidedNoRouteHashable.frame, m₀, GuidedNoRouteHashable.initManager]
      rw [DedupFrame.pot, h1]
      omega
    obtain ⟨mr, cur, m', _, _, _, hcursol, hrun⟩ :=
      F.complete hclosed hreach hsolt huniq fuel m₀ hinv hpot
    refine ⟨m', ?_⟩
    rw [hrun]
    have : (GuidedNoRouteHashable.ops sp score).prepareResultFrom m' cur = sol := hcursol
    rw [this]
  · intro S C _ _ _ sp R start sol hclosed hreach hsolt huniq hstartR fuel hfuel
    set F := AStarRouteHashable.frame sp
    set m₀ := AStarRouteHashable.initManager sp start
    have hinv : F.Inv R start sp.isSolution m₀ := by
      refine ⟨?_, ?_, ?_, ?_⟩
      · intro s hs
        simp [F, AStarRouteHashable.frame, m₀, AStarRouteHashable.initManager] at hs ⊢
        exact hs
      · intro s hs
        simp [F, AStarRouteHashable.frame, m₀, AStarRouteHashable.initManager] at hs
        rw [hs]
        exact hstartR
      · simp [F, AStarRouteHashable.frame, m₀, AStarRouteHashable.initManager]
      · intro s hs
        simp [F, AStarRouteHashable.frame, m₀, AStarRouteHashable.initManager] at hs
        subst hs
        left
        simp [F, AStarRouteHashable.frame, m₀, AStarRouteHashable.initManager]
    have hpot : F.pot R m₀ < fuel := by
      have h1 : Multiset.card (F.fr m₀) = 1 := by
        simp [F, AStarRouteHashable.frame, m₀, AStarRouteHashable.initManager]
      rw [DedupFrame.pot, h1]
      omega
    obtain ⟨mr, cur, m', hdreach, _, hpop, hcursol, hrun⟩ :=
      F.complete hclosed hreach hsolt huniq fuel m₀ hinv hpot
    have hainv := AStarRouteHashable.ainv_reach sp start hdreach
      (AStarRouteHashable.ainv_init sp start)
    obtain ⟨entry, hq, hentst, hentmem, hpar, _, _⟩ :=
      AStarRouteHashable.popState_elim_asrh sp hpop
    subst hentst
    obtain ⟨hwf, _, steps, hcs, hroute, _⟩ := hainv.2 entry hentmem
    refine ⟨(AStarRouteHashable.ops sp).prepareResultFrom m' entry.state, m',
      start :: steps.map Prod.fst, hrun, ?_, rfl, ?_⟩
    · show prepareResultFromStateParentMap m'.parents entry.state.toStateParent =
        some (start :: steps.map Prod.fst)
      rw [hpar]
      exact hroute
    · have h2 := (prepareResult_getLast hroute).2
      rw [h2]
      have : entry.state.toStateParent.state = sol := hcursol
      rw [this]

/-- C1 witness: breadth-first hashable search on the one-edge space `0 → 1`
finds the unique solution `1` with fuel `6 > 1 + 2·|R|`. -/
theorem c1_dedup_variants_yield_unique_solution_witness :
    (∀ s ∈ ({0, 1} : Finset Nat),
      ∀ t ∈ (⟨fun s => if s = 0 then [1] else [], fun s => s = 1⟩ :
        SearchSpace Nat).nextStates s, t ∈ ({0, 1} : Finset Nat)) ∧
    Relation.ReflTransGen (fun a b =>
      b ∈ (⟨fun s => if s = 0 then [1] else [], fun s => s = 1⟩ :
        SearchSpace Nat).nextStates a) 0 1 ∧
    (⟨fun s => if s = 0 then [1] else [], fun s => s = 1⟩ :
      SearchSpace Nat).isSolution 1 = true ∧
    (∀ s ∈ ({0, 1} : Finset Nat),
      (⟨fun s => if s = 0 then [1] else [], fun s => s = 1⟩ :
        SearchSpace Nat).isSolution s = true → s = 1) ∧
    (0 : Nat) ∈ ({0, 1} : Finset Nat) ∧
    1 + 2 * ({0, 1} : Finset Nat).card < 6 ∧
    ∃ m', searcherNext
      (UnguidedNoRouteHashable.ops
        (⟨fun s => if s = 0 then [1] else [], fun s => s = 1⟩ : SearchSpace Nat))
      (⟨fun s => if s = 0 then [1] else [], fun s => s = 1⟩ :
        SearchSpace Nat).isSolution 6
      { UnguidedNoRouteHashable.initManager 0 with depthFirst := false } =
      .found 1 m' := by
  refine ⟨by decide, Relation.ReflTransGen.single (by decide), by decide, by decide,
    by decide, by decide, ?_⟩
  exact (c1_dedup_variants_yield_unique_solution.2.1 Nat
    (⟨fun s => if s = 0 then [1] else [], fun s => s = 1⟩ : SearchSpace Nat)
    ({0, 1} : Finset Nat) 0 1 false (by decide)
    (Relation.ReflTransGen.single (by decide)) (by decide) (by decide) (by decide)
    6 (by decide))

/-- The weighted four-state space of the C2 counterexample: a cheap detour
`0 →₁ 1 →₁ 2` and an expensive direct edge `0 →₅ 2`, then `2 →₁ 3` with the
unique solution `3`; the zero heuristic is admissible (and consistent). -/
def c2Space : CostSpace Nat Nat :=
  { nextStatesWithCosts := fun s =>
      if s = 0 then [(1, 1), (2, 5)]
      else if s = 1 then [(2, 1)]
      else if s = 2 then [(3, 1)] else []
    score := fun _ => 0
    isSolution := fun s => s = 3 }

/-- The manager left behind by the C2 counterexample run. -/
def c2Final : AStarRouteHashable.Manager Nat Nat :=
  match searcherNext (AStarRouteHashable.ops c2Space) c2Space.isSolution 5
      (AStarRouteHashable.initManager c2Space 0) with
  | .found _ m => m
  | .exhausted m => m
  | .outOfFuel m => m

/-- C2 counterexample: with the admissible zero heuristic on `c2Space`, the
deduplicating A* route manager yields the route `[0, 2, 3]` whose cumulative
edge cost is 6, although the start-to-solution path `0 → 1 → 2 → 3` costs 3
— generation-time duplicate elimination breaks A* optimality. -/
theorem c2_counterexample_hashable_a_star_suboptimal :
    (∀ (s : Nat) (l : List (Nat × Nat)), CSteps c2Space s l →
      c2Space.isSolution (pathEnd s l) = true → c2Space.score s ≤ pathCost l) ∧
    searcherNext (AStarRouteHashable.ops c2Space) c2Space.isSolution 5
      (AStarRouteHashable.initManager c2Space 0) = .found (some [0, 2, 3]) c2Final ∧
    CSteps c2Space 0 [(1, 1), (2, 1), (3, 1)] ∧
    pathEnd 0 ([(1, 1), (2, 1), (3, 1)] : List (Nat × Nat)) = 3 ∧
    c2Space.isSolution 3 = true ∧
    pathCost ([(1, 1), (2, 1), (3, 1)] : List (Nat × Nat)) = 3 ∧
    (∀ l : List (Nat × Nat), CSteps c2Space 0 l →
      (0 : Nat) :: l.map Prod.fst = [0, 2, 3] → pathCost l = 6) ∧
    ¬ (6 : Nat) ≤ 3 := by
  refine ⟨fun s l _ _ => Nat.zero_le _, by decide, by decide, by decide, by decide,
    by decide, ?_, by decide⟩
  intro l hsteps hmap
  rcases l with _ | ⟨⟨a, c1⟩, l⟩
  · simp at hmap
  rcases l with _ | ⟨⟨b, c2⟩, l⟩
  · simp at hmap
  rcases l with _ | ⟨⟨e, c3⟩, l⟩
  swap
  · simp at hmap
  simp at hmap
  obtain ⟨rfl, rfl⟩ := hmap
  obtain ⟨h1, h2, _⟩ := hsteps
  simp [c2Space] at h1 h2
  simp [pathCost, h1, h2]

/-- C2 (amended): the claim holds as stated only in its breadth-first half —
the flag-off unguided route manager yields a route of minimum length among
all start-to-solution walks.  Cost-optimality under an admissible heuristic
holds for the non-deduplicating A* route manager: every yielded route
corresponds to a start-to-solution cost-path of minimum total edge cost.
(The deduplicating A* manager is refuted by the recorded counterexample.) -/
theorem c2_bfs_shortest_and_pure_a_star_admissible_optimal :
    (∀ (T : Type) [DecidableEq T] (sp : SearchSpace T) (start : T)
      (fuel : Nat) (y : Option (List T)) (m' : UnguidedRouteHashable.Manager T),
      searcherNext (UnguidedRouteHashable.ops sp) sp.isSolution fuel
        (UnguidedRouteHashable.initManager start) = .found y m' →
      ∃ p, y = some p ∧ p.head? = some start ∧
        (∃ s, p.getLast? = some s ∧ sp.isSolution s = true) ∧
        List.Chain' (fun a b => b ∈ sp.nextStates a) p ∧
        ∀ q, Steps sp start q → sp.isSolution (stepsEnd start q) = true →
          p.length ≤ q.length + 1) ∧
    (∀ (T : Type) [DecidableEq T] (sp : CostSpace T Nat) (start : T)
      (fuel : Nat) (y : Option (List T)) (m' : AStarRouteUnhashable.Manager T Nat),
      (∀ s l, CSteps sp s l → sp.isSolution (pathEnd s l) = true →
        sp.score s ≤ pathCost l) →
      searcherNext (AStarRouteUnhashable.ops sp) sp.isSolution fuel
        (AStarRouteUnhashable.initManager sp start) = .found y m' →
      ∃ steps, y = some (start :: steps.map Prod.fst) ∧
        CSteps sp start steps ∧ sp.isSolution (pathEnd start steps) = true ∧
        ∀ q, CSteps sp start q → sp.isSolution (pathEnd start q) = true →
          pathCost steps ≤ pathCost q) := by
  constructor
  · intro T _ sp start fuel y m' hrun
    obtain ⟨m₀, cur, hreach, hpop, hsolT, hy⟩ := searcherNext_found_elim hrun
    obtain ⟨hflag, wf, hstart, hexp, d0, A0, B0, hblocks⟩ :=
      UnguidedRouteHashable.binv_reach sp start hreach
        (UnguidedRouteHashable.binv_init sp start)
    obtain ⟨hfr, hpar1, _, _⟩ := UnguidedRouteHashable.popState_front sp hflag hpop
    obtain ⟨D, A', B', ⟨hsplit, hA, hB, hrex⟩, _⟩ :=
      UnguidedRouteHashable.blocks_head sp start hstart hexp hblocks hfr
    obtain ⟨hwfc, ⟨p, hp, hh, hl, hc, hplen⟩, hmincur⟩ :=
      hA cur (List.mem_cons_self _ _)
    refine ⟨p, ?_, hh, ⟨cur.state, hl, hsolT⟩, hc, ?_⟩
    · rw [hy]
      show prepareResultFromStateParentMap m'.parents cur = some p
      rw [hpar1]
      exact hp
    · intro q hq hqsol
      rw [hplen]
      have hD : D ≤ q.length := by
        by_contra hlt
        push_neg at hlt
        have hz := hrex q hq hlt
        rcases hexp _ hz with ⟨it, hit, hits⟩ | ⟨hns, _⟩
        · rw [hsplit] at hit
          have hmq : D ≤ q.length := by
            rcases List.mem_append.mp hit with h1 | h1
            · exact (hA it h1).2.2 q hq hits.symm
            · exact Nat.le_of_succ_le ((hB it h1).2.2 q hq hits.symm)
          omega
        · rw [hqsol] at hns
          cases hns
      omega
  · intro T _ sp start fuel y m' hadm hrun
    obtain ⟨m₀, cur, hreach, hpop, hsolT, hy⟩ := searcherNext_found_elim hrun
    obtain ⟨wf, hfrE, hpfx⟩ :=
      AStarRouteUnhashable.oinv_reach sp start hreach
        (AStarRouteUnhashable.oinv_init sp start)
    obtain ⟨entry, hq, hentst, hentmem, hpar1, _⟩ :=
      AStarRouteUnhashable.popState_elim_asru sp hpop
    obtain ⟨hwfc, hsc, steps, hcs, hroute, hcost⟩ := hfrE entry hentmem
    have hend : pathEnd start steps = entry.state.state := by
      have h1 := pathEnd_getLast start steps
      have h2 := (prepareResult_getLast hroute).2
      rw [h1] at h2
      exact Option.some_injective _ h2
    refine ⟨steps, ?_, hcs, ?_, ?_⟩
    · rw [hy]
      show prepareResultFromStateParentMap m'.parents cur.toStateParent =
        some (start :: steps.map Prod.fst)
      rw [hpar1, ← hentst]
      exact hroute
    · rw [hend, hentst]
      exact hsolT
    · intro q2 hq2 hq2sol
      obtain ⟨e_w, hwmem, k, hk, hwstate, hwcost⟩ := hpfx q2 hq2 hq2sol
      have hle : entry.score ≤ e_w.score := heapPop_osCmp_min hq e_w hwmem
      obtain ⟨_, hwsc, _⟩ := hfrE e_w hwmem
      have hadm' := hadm (pathEnd start (q2.take k)) (q2.drop k)
        (csteps_drop hq2 k) (by rw [pathEnd_drop]; exact hq2sol)
      have hwscore : e_w.score ≤ pathCost q2 := by
        rw [hwsc, hwcost, hwstate]
        calc sp.score (pathEnd start (q2.take k)) + pathCost (q2.take k)
            ≤ pathCost (q2.drop k) + pathCost (q2.take k) :=
              Nat.add_le_add_right hadm' _
          _ = pathCost (q2.take k) + pathCost (q2.drop k) := Nat.add_comm _ _
          _ = pathCost q2 := pathCost_take_drop q2 k
      have hself : pathCost steps ≤ entry.score := by
        rw [hsc, hcost]
        exact Nat.le_add_left _ _
      omega

/-- Tiny unweighted witness space `0 → 1` with unique solution `1`. -/
def c2wSpace : SearchSpace Nat :=
  ⟨fun s => if s = 0 then [1] else [], fun s => s = 1⟩

/-- The manager left behind by the breadth-first witness run. -/
def c2wBfsFinal : UnguidedRouteHashable.Manager Nat :=
  match searcherNext (UnguidedRouteHashable.ops c2wSpace) c2wSpace.isSolution 3
      (UnguidedRouteHashable.initManager 0) with
  | .found _ m => m
  | .exhausted m => m
  | .outOfFuel m => m

/-- Tiny weighted witness space `0 →₁ 1` with the zero heuristic. -/
def c2wCost : CostSpace Nat Nat :=
  ⟨fun s => if s = 0 then [(1, 1)] else [], fun _ => 0, fun s => s = 1⟩

/-- The manager left behind by the A* witness run. -/
def c2wAstarFinal : AStarRouteUnhashable.Manager Nat Nat :=
  match searcherNext (AStarRouteUnhashable.ops c2wCost) c2wCost.isSolution 3
      (AStarRouteUnhashable.initManager c2wCost 0) with
  | .found _ m => m
  | .exhausted m => m
  | .outOfFuel m => m

/-- C2 witness: the amended theorem applied to the one-edge spaces, on which
breadth-first search and pure A* both return the two-state route. -/
theorem c2_bfs_shortest_and_pure_a_star_admissible_optimal_witness :
    (∀ (s : Nat) (l : List (Nat × Nat)), CSteps c2wCost s l →
      c2wCost.isSolution (pathEnd s l) = true → c2wCost.score s ≤ pathCost l) ∧
    searcherNext (UnguidedRouteHashable.ops c2wSpace) c2wSpace.isSolution 3
      (UnguidedRouteHashable.initManager 0) = .found (some [0, 1]) c2wBfsFinal ∧
    searcherNext (AStarRouteUnhashable.ops c2wCost) c2wCost.isSolution 3
      (AStarRouteUnhashable.initManager c2wCost 0) =
        .found (some [0, 1]) c2wAstarFinal ∧
    (∃ p, (some [0, 1] : Option (List Nat)) = some p ∧ p.head? = some 0 ∧
      (∃ s, p.getLast? = some s ∧ c2wSpace.isSolution s = true) ∧
      List.Chain' (fun a b => b ∈ c2wSpace.nextStates a) p ∧
      ∀ q, Steps c2wSpace 0 q → c2wSpace.isSolution (stepsEnd 0 q) = true →
        p.length ≤ q.length + 1) ∧
    (∃ steps, (some [0, 1] : Option (List Nat)) =
        some ((0 : Nat) :: steps.map Prod.fst) ∧
      CSteps c2wCost 0 steps ∧ c2wCost.isSolution (pathEnd 0 steps) = true ∧
      ∀ q, CSteps c2wCost 0 q → c2wCost.isSolution (pathEnd 0 q) = true →
        pathCost steps ≤ pathCost q) := by
  refine ⟨fun s l _ _ => Nat.zero_le _, by decide, by decide, ?_, ?_⟩
  · exact c2_bfs_shortest_and_pure_a_star_admissible_optimal.1 Nat c2wSpace 0 3
      (some [0, 1]) c2wBfsFinal (by decide)
  · exact c2_bfs_shortest_and_pure_a_star_admissible_optimal.2 Nat c2wCost 0 3
      (some [0, 1]) c2wAstarFinal (fun s l _ _ => Nat.zero_le _) (by decide)

/-- C10 witness: applied at a concrete two-successor cost space. -/
theorem c10_blanket_searchable_projects_costs_witness :
    ((CostSpace.nextStates ⟨fun s => [(s + 1, 1), (s + 2, 5)], fun _ => 0, fun _ => false⟩
        (0 : Nat)).length = 2 ∧
      (CostSpace.nextStates
          (⟨fun s => [(s + 1, 1), (s + 2, 5)], fun _ => 0, fun _ => false⟩ :
            CostSpace Nat Nat) 0).get ⟨0, by decide⟩ = 1) := by
  refine ⟨?_, ?_⟩
  · exact ((c10_blanket_searchable_projects_costs
      (⟨fun s => [(s + 1, 1), (s + 2, 5)], fun _ => 0, fun _ => false⟩ :
        CostSpace Nat Nat)).1 0).1.trans (by decide)
  · have := ((c10_blanket_searchable_projects_costs
      (⟨fun s => [(s + 1, 1), (s + 2, 5)], fun _ => 0, fun _ => false⟩ :
        CostSpace Nat Nat)).1 0).2 0 (by decide) (by decide)
    exact this.trans (by decide)

end SpaceSearch





